import Mathlib

/-!
# Verification of the cbzlint metadata-validation core

Shallow embedding of the cbzlint repository (src/cbz.rs, src/bedetheque.rs,
src/metadata.rs, src/main.rs) together with proofs settling the frozen
claims about it.  Strings are modelled as `List Char`; machine integers as
`Nat` with explicit bounds where the source parses sized integers.
-/

namespace Cbzlint

/-- Strings are modelled as lists of characters. -/
abbrev Str := List Char

/-! ## Basic character classes (mirroring the Rust regex classes used) -/

/-- `[0-9]` from the regexes in cbz.rs / metadata.rs. -/
def isDigit (c : Char) : Bool := '0' ≤ c && c ≤ '9'

/-- `\w` (word character) from the `[\w+-<width>]` tag segment; modelled as
ASCII alphanumeric or underscore. -/
def isWordChar (c : Char) : Bool :=
  ('a' ≤ c && c ≤ 'z') || ('A' ≤ c && c ≤ 'Z') || isDigit c || c = '_'

/-- `\s` / Rust `char::is_whitespace`, restricted to the common ASCII
whitespace characters. -/
def isWS (c : Char) : Bool := c = ' ' || c = '\t' || c = '\n' || c = '\r'

/-- Numeric value of a digit string (the value `str::parse` would produce
when it succeeds). -/
def natOfDigits (s : Str) : Nat :=
  s.foldl (fun a c => 10 * a + (c.toNat - '0'.toNat)) 0

/-! ## Rust `str::to_lowercase`, modelled per character

Modelled table of the Unicode lowercasing Rust applies, restricted to the
ASCII letters and the accented capitals relevant to the normalizer in
cbz.rs.  Every character outside the table is left unchanged. -/

def lowerTable : List (Char × Char) :=
  [('A','a'), ('B','b'), ('C','c'), ('D','d'), ('E','e'), ('F','f'),
   ('G','g'), ('H','h'), ('I','i'), ('J','j'), ('K','k'), ('L','l'),
   ('M','m'), ('N','n'), ('O','o'), ('P','p'), ('Q','q'), ('R','r'),
   ('S','s'), ('T','t'), ('U','u'), ('V','v'), ('W','w'), ('X','x'),
   ('Y','y'), ('Z','z'),
   ('Ā','ā'), ('Â','â'), ('Ū','ū'), ('Û','û'),
   ('Ē','ē'), ('Ê','ê'), ('Ō','ō'), ('Ô','ô'),
   ('É','é'), ('È','è'), ('À','à'), ('Ç','ç')]

/-- One character of Rust `str::to_lowercase`. -/
def charLower (c : Char) : Char :=
  ((lowerTable.find? (fun p => p.1 = c)).map (fun p => p.2)).getD c

/-- Rust `str::to_lowercase` on a whole string. -/
def strLower (s : Str) : Str := s.map charLower

/-! ## Rust `str::replace(pat, rep)`

Leftmost, non-overlapping replacement of every occurrence of the pattern
by `rep`.  The patterns appearing in the source are one- or two-character
literals, so one function is defined for each pattern length. -/

/-- `str::replace` for a one-character pattern `p`. -/
def replace1 (p : Char) (rep : List Char) : Str → Str
  | [] => []
  | c :: rest =>
    if c = p then rep ++ replace1 p rep rest
    else c :: replace1 p rep rest

/-- `str::replace` for a two-character pattern `p1 p2` (leftmost,
non-overlapping). -/
def replace2 (p1 p2 : Char) (rep : List Char) : Str → Str
  | [] => []
  | [c] => [c]
  | c1 :: c2 :: rest =>
    if c1 = p1 ∧ c2 = p2 then rep ++ replace2 p1 p2 rep rest
    else c1 :: replace2 p1 p2 rep (c2 :: rest)

/-- `fn normalize(authors: &str) -> String` from cbz.rs: lowercase, then a
fixed chain of romanization-folding replacements. -/
def normalize (authors : Str) : Str :=
  replace2 'o' 'o' ['o', 'u'] <|
  replace1 'ô' ['o', 'u'] <|
  replace1 'ō' ['o', 'u'] <|
  replace1 'ê' ['e', 'e'] <|
  replace1 'ē' ['e', 'e'] <|
  replace1 'û' ['u', 'u'] <|
  replace1 'ū' ['u', 'u'] <|
  replace1 'â' ['a', 'a'] <|
  replace1 'ā' ['a', 'a'] <|
  strLower authors

/-! ## Filename parsing (cbz.rs)

`SERIES_REGEX` is
`^(?P<title>.+)(?: T(?P<volume>[0-9]+)) \((?P<authors>.+)\) \((?P<year>[0-9]{4})\) \[\w+-(?P<width>[0-9]+)\]`
and `ONESHOT_REGEX` is the same without the volume segment.  The greedy
`.+` groups are modelled by searching for the largest split position whose
remainder matches the rest of the pattern (the semantics of a greedy,
backtracking regex anchored at the start). -/

/-- `.` in the Rust regexes matches every character except a newline. -/
def noNL (s : Str) : Bool := s.all (fun c => c ≠ '\n')

/-- Largest `i < n` with `p i`, the choice a greedy `.+` group makes. -/
def lastValid (p : Nat → Bool) : Nat → Option Nat
  | 0 => none
  | n + 1 => if p n then some n else lastValid p n

/-- Matches `) (<year>) [<tag>-<width>]` (with `year` exactly four digits,
`tag` a non-empty `\w+` run, `width` a non-empty digit run), returning the
`year` and `width` captures. -/
def matchAfterAuthors : Str → Option (Str × Str)
  | ')' :: ' ' :: '(' :: r =>
    let y := r.take 4
    if y.length = 4 ∧ y.all isDigit then
      match r.drop 4 with
      | ')' :: ' ' :: '[' :: r2 =>
        let tag := r2.takeWhile isWordChar
        if tag = [] then none
        else
          match r2.drop tag.length with
          | '-' :: r3 =>
            let w := r3.takeWhile isDigit
            if w = [] then none
            else
              match r3.drop w.length with
              | ']' :: _ => some (y, w)
              | _ => none
          | _ => none
      | _ => none
    else none
  | _ => none

/-- Valid end position for the greedy `(?P<authors>.+)` group. -/
def validAuthorsSplit (s : Str) (j : Nat) : Bool :=
  1 ≤ j && noNL (s.take j) && (matchAfterAuthors (s.drop j)).isSome

/-- Greedy match of `(?P<authors>.+)\) \(...` on `s`: the authors capture is
the longest prefix that lets the rest of the pattern match. -/
def lastAuthorsSplit (s : Str) : Option (Str × Str × Str) :=
  match lastValid (validAuthorsSplit s) (s.length + 1) with
  | some j =>
    match matchAfterAuthors (s.drop j) with
    | some (y, w) => some (s.take j, y, w)
    | none => none
  | none => none

/-- Matches ` T<volume> (<authors>) (<year>) [<tag>-<width>]`, i.e. the part
of `SERIES_REGEX` after the title capture. -/
def matchTailSeries : Str → Option (Str × Str × Str × Str)
  | ' ' :: 'T' :: r =>
    let v := r.takeWhile isDigit
    if v = [] then none
    else
      match r.drop v.length with
      | ' ' :: '(' :: r2 =>
        match lastAuthorsSplit r2 with
        | some (a, y, w) => some (v, a, y, w)
        | none => none
      | _ => none
  | _ => none

/-- Matches ` (<authors>) (<year>) [<tag>-<width>]`, i.e. the part of
`ONESHOT_REGEX` after the title capture. -/
def matchTailOneshot : Str → Option (Str × Str × Str)
  | ' ' :: '(' :: r2 => lastAuthorsSplit r2
  | _ => none

/-- The capture groups of either filename regex. -/
structure ParsedFields where
  title : Str
  volume : Option Str
  authors : Str
  year : Str
  width : Str
deriving DecidableEq, Repr

/-- Valid end position for the greedy title group of `SERIES_REGEX`. -/
def validSeriesSplit (cs : Str) (i : Nat) : Bool :=
  1 ≤ i && noNL (cs.take i) && (matchTailSeries (cs.drop i)).isSome

/-- Valid end position for the greedy title group of `ONESHOT_REGEX`. -/
def validOneshotSplit (cs : Str) (i : Nat) : Bool :=
  1 ≤ i && noNL (cs.take i) && (matchTailOneshot (cs.drop i)).isSome

/-- `SERIES_REGEX.captures(filename)`. -/
def parseSeries (cs : Str) : Option ParsedFields :=
  match lastValid (validSeriesSplit cs) (cs.length + 1) with
  | some i =>
    match matchTailSeries (cs.drop i) with
    | some (v, a, y, w) => some ⟨cs.take i, some v, a, y, w⟩
    | none => none
  | none => none

/-- `ONESHOT_REGEX.captures(filename)`. -/
def parseOneshot (cs : Str) : Option ParsedFields :=
  match lastValid (validOneshotSplit cs) (cs.length + 1) with
  | some i =>
    match matchTailOneshot (cs.drop i) with
    | some (a, y, w) => some ⟨cs.take i, none, a, y, w⟩
    | none => none
  | none => none

/-- The capture selection in `Book::new`: the series pattern is tried
first, the one-shot pattern only if it fails. -/
def parseFilename (cs : Str) : Option ParsedFields :=
  (parseSeries cs).orElse (fun _ => parseOneshot cs)

/-- `Path::extension`, as a string: the part after the last `.`, provided a
`.` occurs at a position other than the start of the file name. -/
def extension (cs : Str) : Option Str :=
  let revAfter := cs.reverse.takeWhile (fun c => c ≠ '.')
  if revAfter.length = cs.length then none
  else if revAfter.length + 1 = cs.length then none
  else some revAfter.reverse

/-! ## Width and date checks (cbz.rs) -/

/-- The width test from `Book::check_image`: the image width `w` is bad when
it differs from the declared width and lies outside the dual-page range
`(2*width - margin)..=(2*width + margin)` with `margin = width / 10`
(integer division, as in the source). -/
def widthBad (bw w : Nat) : Bool :=
  let margin := bw / 10
  w ≠ bw && !(2 * bw - margin ≤ w && w ≤ 2 * bw + margin)

/-- `zip::DateTime`, the stored last-modified stamp of an archive entry. -/
structure DT where
  year : Nat
  month : Nat
  day : Nat
  hour : Nat
  minute : Nat
  second : Nat
deriving DecidableEq, Repr

/-- `EXPECTED_DATE`: `DateTime::from_date_and_time(2000, 1, 1, 0, 0, 1)`. -/
def EXPECTED_DATE : DT := ⟨2000, 1, 1, 0, 0, 1⟩

/-- `fn check_date(date: DateTime) -> bool` from cbz.rs: only year, month
and day are compared. -/
def check_date (date : DT) : Bool :=
  EXPECTED_DATE.year = date.year ∧ EXPECTED_DATE.month = date.month ∧
    EXPECTED_DATE.day = date.day

/-! ## Sorted sets (the `BTreeSet`s used in metadata.rs)

A `BTreeSet` is modelled as a strictly sorted list; insertion keeps it
sorted and duplicate-free, and iteration is the list itself (ascending). -/

/-- Rust `Ord` on strings (lexicographic; UTF-8 byte order coincides with
code-point order). -/
def strLt : Str → Str → Bool
  | [], [] => false
  | [], _ :: _ => true
  | _ :: _, [] => false
  | a :: as, b :: bs => a < b || (a = b && strLt as bs)

/-- `BTreeSet<String>::insert`. -/
def insertSorted (x : Str) : List Str → List Str
  | [] => [x]
  | y :: ys =>
    if strLt x y then x :: y :: ys
    else if x = y then y :: ys
    else y :: insertSorted x ys

/-- `BTreeSet<u16>::insert`. -/
def insertSortedNat (x : Nat) : List Nat → List Nat
  | [] => [x]
  | y :: ys =>
    if x < y then x :: y :: ys
    else if x = y then y :: ys
    else y :: insertSortedNat x ys

/-! ## Catalog page parsing (metadata.rs)

`AUTHOR_REGEX` is `(?P<category>Scénario|Dessin) :\s+(?P<name>[^,]+)` and
`YEAR_REGEX` is `Dépot légal :\s+[0-9]{2}/(?P<year>[0-9]{4})`, both applied
by an unanchored leftmost search over each info line's text. -/

/-- Rust `str::trim`. -/
def trimStr (s : Str) : Str :=
  ((s.dropWhile isWS).reverse.dropWhile isWS).reverse

/-- Try the category alternation `Scénario|Dessin` at the current position,
returning the capture and the rest of the line. -/
def matchCategoryAt (s : Str) : Option (Str × Str) :=
  if ("Scénario".data).isPrefixOf s then
    some ("Scénario".data, s.drop ("Scénario".data).length)
  else if ("Dessin".data).isPrefixOf s then
    some ("Dessin".data, s.drop ("Dessin".data).length)
  else none

/-- The part of `AUTHOR_REGEX` after the category: `" :"`, then the greedy
`\s+` takes the maximal whitespace run; if the next character would leave
`[^,]+` empty, the regex backtracks one whitespace character into the name
(whitespace is itself a `[^,]` character). -/
def matchAuthorRest (r : Str) : Option Str :=
  match r with
  | ' ' :: ':' :: r2 =>
    let w := r2.takeWhile isWS
    if w.isEmpty then none
    else
      let after := r2.drop w.length
      match after with
      | c :: _ =>
        if c ≠ ',' then some (after.takeWhile (fun x => x ≠ ','))
        else if 2 ≤ w.length then
          match w.reverse with
          | lastW :: _ => some [lastW]
          | [] => none
        else none
      | [] =>
        if 2 ≤ w.length then
          match w.reverse with
          | lastW :: _ => some [lastW]
          | [] => none
        else none
  | _ => none

/-- Try `AUTHOR_REGEX` at the current position. -/
def matchAuthorAt (s : Str) : Option (Str × Str) :=
  match matchCategoryAt s with
  | none => none
  | some (cat, r) => (matchAuthorRest r).map (fun name => (cat, name))

/-- `AUTHOR_REGEX.captures(line)`: leftmost match. -/
def findAuthorCapture : Str → Option (Str × Str)
  | [] => none
  | c :: rest =>
    match matchAuthorAt (c :: rest) with
    | some r => some r
    | none => findAuthorCapture rest

/-- Try `YEAR_REGEX` at the current position. -/
def matchYearAt (s : Str) : Option Str :=
  if ("Dépot légal".data).isPrefixOf s then
    match s.drop ("Dépot légal".data).length with
    | ' ' :: ':' :: r2 =>
      let w := r2.takeWhile isWS
      if w.isEmpty then none
      else
        let after := r2.drop w.length
        if (after.take 2).length = 2 ∧ (after.take 2).all isDigit then
          match after.drop 2 with
          | '/' :: r3 =>
            let y := r3.take 4
            if y.length = 4 ∧ y.all isDigit then some y else none
          | _ => none
        else none
    | _ => none
  else none

/-- `YEAR_REGEX.captures(line)`: leftmost match. -/
def findYearCapture : Str → Option Str
  | [] => none
  | c :: rest =>
    match matchYearAt (c :: rest) with
    | some y => some y
    | none => findYearCapture rest

/-- `VolumeInfo` from metadata.rs. -/
structure VolumeInfo where
  authors : Str
  years : List Nat
deriving DecidableEq, Repr

/-- Processing of one info line in `VolumeInfo::new`; the accumulator is
`(years, writers, pencillers)`. -/
def viStep (acc : List Nat × List Str × List Str) (line : Str) :
    List Nat × List Str × List Str :=
  let (years, writers, pencillers) := acc
  match findAuthorCapture line with
  | some (cat, name) =>
    let name := trimStr name
    if cat = "Dessin".data then
      if writers.contains name then (years, writers, pencillers)
      else (years, writers, insertSorted name pencillers)
    else (years, insertSorted name writers, pencillers)
  | none =>
    match findYearCapture line with
    | some y => (insertSortedNat (natOfDigits y) years, writers, pencillers)
    | none => (years, writers, pencillers)

/-- `Vec::join("-")`. -/
def joinHyphen : List Str → Str
  | [] => []
  | [x] => x
  | x :: xs => x ++ '-' :: joinHyphen xs

/-- `VolumeInfo::new(page)`, taking the text contents of the `.infos li`
lines of the page. -/
def volumeInfoNew (lines : List Str) : VolumeInfo :=
  let res := lines.foldl viStep ([], [], [])
  ⟨joinHyphen (res.2.1 ++ res.2.2), res.1⟩

/-! ## The bedetheque client (bedetheque.rs)

The network is an oracle `Net`; every page retrieval goes through a
`get_html` wrapper that first sleeps two seconds, so each call contributes
`[sleep 2, fetch _]` to an event trace. -/

/-- The shape of a request URL. -/
inductive Req where
  | home
  | search (csrf : Str) (query : Str)
  | book (url : Str)
deriving DecidableEq, Repr

/-- Observable effects of the client. -/
inductive Ev where
  | sleep (secs : Nat)
  | fetch (r : Req)
deriving DecidableEq, Repr

/-- One `.search-list li a` result node: its `.serie` text, `href`
attribute and `.num` text (each possibly missing). -/
structure SEntry where
  serie : Option Str
  href : Option Str
  num : Option Str
deriving DecidableEq, Repr

/-- `struct Volume`, the cache key: exact title and optional volume. -/
structure VKey where
  title : Str
  volume : Option Nat
deriving DecidableEq, Repr

/-- The client cache, a `HashMap<Volume, Url>`. -/
abbrev Cache := List (VKey × Str)

/-- `HashMap::get`. -/
def cLookup : Cache → VKey → Option Str
  | [], _ => none
  | (k', u) :: rest, k => if k' = k then some u else cLookup rest k

/-- `HashMap::insert` (replacing any previous binding of the key). -/
def cInsert (c : Cache) (k : VKey) (u : Str) : Cache :=
  (k, u) :: c.filter (fun p => p.1 ≠ k)

/-- The remote site: the CSRF token on the homepage (none = not found),
the search results for a `RechSerie` value, and the info lines of a book
page (none = fetch or decode failure). -/
structure Net where
  home : Option Str
  search : Str → List SEntry
  book : Str → Option (List Str)

/-- `fn get_book_number(node)`: the `.num` text, empty meaning a one-shot,
otherwise `#`-stripped and parsed as `u8`. -/
def getBookNumber (e : SEntry) : Except String (Option Nat) :=
  match e.num with
  | none => .error "book number not found"
  | some t =>
    if t.isEmpty then .ok none
    else
      let d := t.dropWhile (fun c => c = '#')
      if d ≠ [] ∧ d.all isDigit ∧ natOfDigits d ≤ 255 then .ok (some (natOfDigits d))
      else .error "invalid book number"

/-- `fn is_right_series(node, title, exact_match)`. -/
def isRightSeries (e : SEntry) (title : Str) (exact : Bool) : Bool :=
  let titleN := strLower title
  match e.serie with
  | none => false
  | some txt =>
    let text := strLower (trimStr (replace1 '!' [] txt))
    if exact then text = titleN else titleN.isPrefixOf text

/-- The candidate loop of `Client::get_link`: extract each node's URL and
volume number, remember the last volume match, and cache every observed
`(title, number) -> url` pair. -/
def getLinkLoop (title : Str) (volume : Option Nat) :
    List SEntry → Option Str → Cache → Except String (Option Str) × Cache
  | [], res, c => (.ok res, c)
  | e :: rest, res, c =>
    match e.href with
    | none => (.error "book URL not found", c)
    | some link =>
      match getBookNumber e with
      | .error m => (.error m, c)
      | .ok number =>
        let res := if number = volume then some link else res
        getLinkLoop title volume rest res (cInsert c ⟨title, number⟩ link)

/-- The node selection of `Client::get_link`: filter the candidate links by
exact title match, falling back on prefix match if none qualify. -/
def tierNodes (net : Net) (title query : Str) : List SEntry :=
  let html := net.search query
  let exactNodes := html.filter (fun e => isRightSeries e title true)
  if exactNodes.isEmpty then html.filter (fun e => isRightSeries e title false)
  else exactNodes

/-- `Client::get_link`: fetch the results page, select the candidate tier,
then run the candidate loop. -/
def getLink (net : Net) (title : Str) (volume : Option Nat) (csrf query : Str)
    (c : Cache) : Except String Str × Cache × List Ev :=
  let trace := [Ev.sleep 2, Ev.fetch (Req.search csrf query)]
  match getLinkLoop title volume (tierNodes net title query) none c with
  | (.ok (some u), c') => (.ok u, c', trace)
  | (.ok none, c') => (.error "cannot find book on bedetheque", c', trace)
  | (.error m, c') => (.error m, c', trace)

/-- `title.contains('-')`. -/
def hasHyphen (s : Str) : Bool := s.any (fun c => c = '-')

/-- `title.replace("- ", "")`. -/
def stripHyphenSpace (s : Str) : Str := replace2 '-' ' ' [] s

/-- `Client::find_book`: cache lookup, CSRF handshake, search, and one
hyphen-degraded retry. -/
def findBook (net : Net) (c : Cache) (title : Str) (volume : Option Nat) :
    Except String Str × Cache × List Ev :=
  let key : VKey := ⟨title, volume⟩
  match cLookup c key with
  | some u => (.ok u, c, [])
  | none =>
    let homeTrace := [Ev.sleep 2, Ev.fetch Req.home]
    match net.home with
    | none => (.error "CSRF token not found", c, homeTrace)
    | some csrf =>
      let r1 := getLink net title volume csrf (strLower title) c
      match r1 with
      | (.ok u, c1, t1) => (.ok u, c1, homeTrace ++ t1)
      | (.error m, c1, t1) =>
        if hasHyphen title then
          let title2 := stripHyphenSpace title
          let r2 := getLink net title2 volume csrf (strLower title2) c1
          (r2.1, r2.2.1, homeTrace ++ t1 ++ r2.2.2)
        else (.error m, c1, homeTrace ++ t1)

/-- `Client::fetch_info`. -/
def fetchInfo (net : Net) (url : Str) : Except String VolumeInfo × List Ev :=
  let trace := [Ev.sleep 2, Ev.fetch (Req.book url)]
  match net.book url with
  | none => (.error "failed to get metadata from bedetheque", trace)
  | some lines => (.ok (volumeInfoNew lines), trace)

/-! ## Books and archive checking (cbz.rs, main.rs) -/

/-- `struct Book`. -/
structure Book where
  path : Str
  url : Str
  authors : Str
  year : Nat
  width : Nat
deriving DecidableEq, Repr

/-- Outcome of a fallible Rust computation that may also panic (a panic
aborts the whole process, unlike a returned `Err`). -/
inductive PResult (α : Type) where
  | ok (a : α)
  | err (msg : String)
  | panik (msg : String)
deriving DecidableEq, Repr

/-- `enum Error` (the findings; cbz.rs uses the `Exif` variant for a
present metadata block). -/
inductive Error where
  | authors (expected : Str)
  | year (expected : List Nat)
  | width
  | exif
  | date
deriving DecidableEq, Repr

/-- `Book::new_from_captures`: numeric fields are parsed with `expect`
(panicking on failure: `u8` for volume, `u16` for year, `usize` for
width), then the catalog URL is resolved via `Client::find_book`. -/
def newFromCaptures (net : Net) (c : Cache) (path : Str) (f : ParsedFields) :
    PResult Book × Cache × List Ev :=
  let vres : PResult (Option Nat) :=
    match f.volume with
    | none => .ok none
    | some vs =>
      if natOfDigits vs ≤ 255 then .ok (some (natOfDigits vs))
      else .panik "valid volume"
  match vres with
  | .panik m => (.panik m, c, [])
  | .err m => (.err m, c, [])
  | .ok volume =>
    if 65535 < natOfDigits f.year then (.panik "valid year", c, [])
    else if 2 ^ 64 ≤ natOfDigits f.width then (.panik "valid width", c, [])
    else
      match findBook net c f.title volume with
      | (.ok url, c', t) =>
        (.ok ⟨path, url, f.authors, natOfDigits f.year, natOfDigits f.width⟩, c', t)
      | (.error m, c', t) => (.err m, c', t)

/-- `Book::new`: extension check, then the two filename grammars in
order. -/
def bookNew (net : Net) (c : Cache) (path : Str) : PResult Book × Cache × List Ev :=
  if extension path ≠ some ("cbz".data) then (.err "not a CBZ", c, [])
  else
    match parseFilename path with
    | none => (.err "cannot extract info from filename", c, [])
    | some f => newFromCaptures net c path f

/-- Result of the EXIF probe on an entry's bytes. -/
inductive ExifRes where
  | found
  | notFound
  | decodeErr
deriving DecidableEq, Repr

/-- One ZIP entry, as the archive inspector observes it. -/
structure ZEntry where
  isFile : Bool
  date : DT
  bytesOk : Bool
  width : Option Nat
  exif : ExifRes
deriving DecidableEq, Repr

/-- `Book::check_image`: read the bytes, test the width, then probe for
EXIF metadata; `ok none` means the entry passed, `ok (some f)` that a
finding `f` was pushed and iteration must stop. -/
def checkImage (b : Book) (e : ZEntry) : Except String (Option Error) :=
  if ¬e.bytesOk then .error "failed to read image"
  else
    match e.width with
    | none => .error "cannot get width"
    | some w =>
      if widthBad b.width w then .ok (some .width)
      else
        match e.exif with
        | .found => .ok (some .exif)
        | .notFound => .ok none
        | .decodeErr => .error "cannot check EXIF"

/-- The per-entry loop of `Book::check`: directories are skipped, a bad
date or bad image stops the loop with that single finding. -/
def checkLoop (b : Book) : List ZEntry → Except String (List Error)
  | [] => .ok []
  | e :: rest =>
    if ¬e.isFile then checkLoop b rest
    else if ¬check_date e.date then .ok [.date]
    else
      match checkImage b e with
      | .error m => .error m
      | .ok (some f) => .ok [f]
      | .ok none => checkLoop b rest

/-- `Book::check_book_metadata`: compare normalized authors and the year
set, pushing `Authors`/`Year` findings. -/
def checkBookMetadata (info : VolumeInfo) (b : Book) : List Error :=
  (if normalize info.authors ≠ normalize b.authors then [.authors info.authors] else []) ++
    (if info.years.contains b.year then [] else [.year info.years])

/-- `Book::check`: fetch the catalog page, metadata findings first, then
the per-entry loop. -/
def check (net : Net) (b : Book) (entries : List ZEntry) :
    Except String (List Error) × List Ev :=
  match fetchInfo net b.url with
  | (.error m, t) => (.error m, t)
  | (.ok info, t) =>
    match checkLoop b entries with
    | .error m => (.error m, t)
    | .ok l => (.ok (checkBookMetadata info b ++ l), t)

/-- `get_books` (main.rs, directory branch): construct a `Book` per path;
a constructor `Err` skips the file with an individual warning and the
iteration continues, while a panic aborts the whole run.  Returns the
books, the warned-about paths, and the final client cache. -/
def getBooks (net : Net) : Cache → List Str → PResult (List Book) × List Str × Cache
  | c, [] => (.ok [], [], c)
  | c, p :: rest =>
    match bookNew net c p with
    | (.ok b, c', _) =>
      match getBooks net c' rest with
      | (.ok bs, warns, c'') => (.ok (b :: bs), warns, c'')
      | (r, warns, c'') => (r, warns, c'')
    | (.err _, c', _) =>
      match getBooks net c' rest with
      | (r, warns, c'') => (r, p :: warns, c'')
    | (.panik m, c', _) => (.panik m, [], c')

/-! ## Claim C2: the width check -/

/-- C2: for declared width `W` and observed width `w`, the width check
passes exactly when `w = W` or `w` lies in the inclusive band `2W ± 0.1W`
(stated without division as `19W ≤ 10w ∧ 10w ≤ 21W`); `check_image`
produces a `Width` finding exactly on the failing widths; and at `W = 1000`
the widths `1000`, `2000`, `1900 = 2W - 0.1W`, `2100 = 2W + 0.1W` pass
while `2110 = 2W + 0.11W` and `500 = 0.5W` fail. -/
theorem C2_width_check :
    (∀ W w : Nat, widthBad W w = false ↔ (w = W ∨ (19 * W ≤ 10 * w ∧ 10 * w ≤ 21 * W)))
    ∧ (∀ (b : Book) (e : ZEntry) (w : Nat), e.bytesOk = true → e.width = some w →
        (checkImage b e = .ok (some .width) ↔ widthBad b.width w = true))
    ∧ widthBad 1000 1000 = false ∧ widthBad 1000 2000 = false
    ∧ widthBad 1000 1900 = false ∧ widthBad 1000 2100 = false
    ∧ widthBad 1000 2110 = true ∧ widthBad 1000 500 = true := by
  refine ⟨?_, ?_, by decide, by decide, by decide, by decide, by decide, by decide⟩
  · intro W w
    unfold widthBad
    by_cases h1 : w = W
    · subst h1; simp
    · simp only [ne_eq, h1, not_false_iff, decide_True, Bool.true_and,
        Bool.not_eq_false', Bool.and_eq_true, decide_eq_true_eq, false_or]
      omega
  · intro b e w hb hw
    unfold checkImage
    rw [hw, if_neg (by simp [hb])]
    by_cases hbad : widthBad b.width w = true
    · simp [hbad]
    · simp only [Bool.not_eq_true] at hbad
      dsimp only
      rw [if_neg (by simp [hbad])]
      simp only [hbad, Bool.false_eq_true, iff_false]
      rcases e.exif with _ | _ | _ <;> simp

/-- C2 witness: the general `check_image` characterisation instantiated at
a concrete book of declared width 1000 and an entry of width 2110. -/
theorem C2_width_check_witness :
    checkImage ⟨[], [], [], 2020, 1000⟩ ⟨true, EXPECTED_DATE, true, some 2110, .notFound⟩ =
      .ok (some .width) :=
  (C2_width_check.2.1 ⟨[], [], [], 2020, 1000⟩
    ⟨true, EXPECTED_DATE, true, some 2110, .notFound⟩ 2110 rfl rfl).mpr (by decide)

/-! ## Claim C8: the timestamp check -/

/-- C8: an entry passes the timestamp check exactly when its stored
year/month/day equal the sentinel date 2000-01-01; the time of day is
irrelevant; and a file entry whose calendar day differs produces a `Date`
finding that ends the loop. -/
theorem C8_date_check :
    (∀ d : DT, check_date d = true ↔ (d.year = 2000 ∧ d.month = 1 ∧ d.day = 1))
    ∧ (∀ y mo da h mi s h' mi' s',
        check_date ⟨y, mo, da, h, mi, s⟩ = check_date ⟨y, mo, da, h', mi', s'⟩)
    ∧ (∀ (b : Book) (e : ZEntry) (rest : List ZEntry), e.isFile = true →
        check_date e.date = false → checkLoop b (e :: rest) = .ok [.date]) := by
  refine ⟨?_, ?_, ?_⟩
  · intro d
    unfold check_date EXPECTED_DATE
    simp only [decide_eq_true_eq]
    tauto
  · intro y mo da h mi s h' mi' s'
    unfold check_date EXPECTED_DATE
    rfl
  · intro b e rest hf hd
    unfold checkLoop
    simp [hf, hd]

/-- C8 witness: the sentinel calendar date with a different time of day
passes, and an entry dated one year later yields the `Date` finding. -/
theorem C8_date_check_witness :
    check_date ⟨2000, 1, 1, 23, 59, 59⟩ = true
    ∧ checkLoop ⟨[], [], [], 2020, 1000⟩
        [⟨true, ⟨2001, 1, 1, 0, 0, 1⟩, true, some 1000, .notFound⟩] = .ok [.date] :=
  ⟨(C8_date_check.1 ⟨2000, 1, 1, 23, 59, 59⟩).mpr (by decide),
   C8_date_check.2.2 ⟨[], [], [], 2020, 1000⟩
     ⟨true, ⟨2001, 1, 1, 0, 0, 1⟩, true, some 1000, .notFound⟩ [] rfl (by decide)⟩

/-! ## Claim C10: idempotence of the author normalizer -/

/-- `true` iff the string contains the substring `"oo"`. -/
def hasOO : Str → Bool
  | [] => false
  | c :: rest => (c = 'o' && (rest.head? = some 'o')) || hasOO rest

/-- Every character of a single-character replacement's output comes from
its input or from the replacement text. -/
theorem mem_replace1 (p : Char) (rep : List Char) :
    ∀ (s : Str), ∀ x ∈ replace1 p rep s, x ∈ s ∨ x ∈ rep := by
  intro s
  induction s with
  | nil =>
    intro x hx
    exact absurd hx (List.not_mem_nil x)
  | cons c rest ih =>
    intro x hx
    unfold replace1 at hx
    by_cases hc : c = p
    · rw [if_pos hc] at hx
      rcases List.mem_append.mp hx with h | h
      · exact Or.inr h
      · rcases ih x h with h' | h'
        · exact Or.inl (List.mem_cons_of_mem c h')
        · exact Or.inr h'
    · rw [if_neg hc] at hx
      rcases List.mem_cons.mp hx with h | h
      · exact Or.inl (h ▸ List.mem_cons_self x rest)
      · rcases ih x h with h' | h'
        · exact Or.inl (List.mem_cons_of_mem c h')
        · exact Or.inr h'

/-- Every character of a two-character replacement's output comes from its
input or from the replacement text. -/
theorem mem_replace2 (p1 p2 : Char) (rep : List Char) :
    ∀ (s : Str), ∀ x ∈ replace2 p1 p2 rep s, x ∈ s ∨ x ∈ rep := by
  have H : ∀ (n : Nat) (s : Str), s.length ≤ n →
      ∀ x ∈ replace2 p1 p2 rep s, x ∈ s ∨ x ∈ rep := by
    intro n
    induction n with
    | zero =>
      intro s hs x hx
      rw [List.length_eq_zero.mp (Nat.le_zero.mp hs)] at hx ⊢
      exact absurd hx (List.not_mem_nil x)
    | succ n ih =>
      intro s hs x hx
      match s with
      | [] => exact absurd hx (List.not_mem_nil x)
      | [c] =>
        exact Or.inl hx
      | c1 :: c2 :: rest =>
        unfold replace2 at hx
        simp only [List.length_cons, Nat.succ_le_succ_iff] at hs
        by_cases hc : c1 = p1 ∧ c2 = p2
        · rw [if_pos hc] at hx
          rcases List.mem_append.mp hx with h | h
          · exact Or.inr h
          · rcases ih rest (by omega) x h with h' | h'
            · exact Or.inl (List.mem_cons_of_mem c1 (List.mem_cons_of_mem c2 h'))
            · exact Or.inr h'
        · rw [if_neg hc] at hx
          rcases List.mem_cons.mp hx with h | h
          · exact Or.inl (h ▸ List.mem_cons_self x (c2 :: rest))
          · rcases ih (c2 :: rest) (by simpa using hs) x h with h' | h'
            · exact Or.inl (List.mem_cons_of_mem c1 h')
            · exact Or.inr h'
  intro s
  exact H s.length s le_rfl

/-- Replacing a single-character pattern removes every occurrence of it,
provided the replacement text does not reintroduce it. -/
theorem not_mem_replace1_self (p : Char) (rep : List Char) (hp : p ∉ rep) :
    ∀ (s : Str), p ∉ replace1 p rep s := by
  intro s
  induction s with
  | nil => exact List.not_mem_nil p
  | cons c rest ih =>
    unfold replace1
    by_cases hc : c = p
    · rw [if_pos hc]
      intro hmem
      rcases List.mem_append.mp hmem with h | h
      · exact hp h
      · exact ih h
    · rw [if_neg hc]
      intro hmem
      rcases List.mem_cons.mp hmem with h | h
      · exact hc h.symm
      · exact ih h

/-- A character absent from the input and from the replacement text is
absent from a single-character replacement's output. -/
theorem not_mem_replace1 (p : Char) (rep : List Char) (x : Char) (s : Str)
    (hs : x ∉ s) (hr : x ∉ rep) : x ∉ replace1 p rep s := by
  intro hmem
  rcases mem_replace1 p rep s x hmem with h | h
  · exact hs h
  · exact hr h

/-- A character absent from the input and from the replacement text is
absent from a two-character replacement's output. -/
theorem not_mem_replace2 (p1 p2 : Char) (rep : List Char) (x : Char) (s : Str)
    (hs : x ∉ s) (hr : x ∉ rep) : x ∉ replace2 p1 p2 rep s := by
  intro hmem
  rcases mem_replace2 p1 p2 rep s x hmem with h | h
  · exact hs h
  · exact hr h

/-- Replacing a single-character pattern that does not occur is the
identity. -/
theorem replace1_id (p : Char) (rep : List Char) :
    ∀ (s : Str), p ∉ s → replace1 p rep s = s := by
  intro s
  induction s with
  | nil => intro _; rfl
  | cons c rest ih =>
    intro hp
    unfold replace1
    rw [if_neg (fun h : c = p => hp (h ▸ List.mem_cons_self c rest)),
      ih (fun h => hp (List.mem_cons_of_mem c h))]

/-- The `"oo"` replacement leaves a string without an `"oo"` occurrence
unchanged. -/
theorem replace2_oo_id : ∀ (s : Str), hasOO s = false →
    replace2 'o' 'o' ['o', 'u'] s = s := by
  have H : ∀ (n : Nat) (s : Str), s.length ≤ n → hasOO s = false →
      replace2 'o' 'o' ['o', 'u'] s = s := by
    intro n
    induction n with
    | zero =>
      intro s hs _
      rw [List.length_eq_zero.mp (Nat.le_zero.mp hs)]
      rfl
    | succ n ih =>
      intro s hs h
      match s with
      | [] => rfl
      | [c] => rfl
      | c1 :: c2 :: rest =>
        simp only [hasOO, List.head?_cons, Option.some.injEq, Bool.or_eq_false_iff,
          Bool.and_eq_false_iff, decide_eq_false_iff_not] at h
        simp only [List.length_cons, Nat.succ_le_succ_iff] at hs
        unfold replace2
        rw [if_neg (fun hc => by
          rcases h.1 with h' | h'
          · exact h' hc.1
          · exact h' hc.2)]
        have h2 : hasOO (c2 :: rest) = false := by
          simp only [hasOO, Bool.or_eq_false_iff, Bool.and_eq_false_iff,
            decide_eq_false_iff_not]
          constructor
          · rcases h.1 with h' | h'
            · rcases h.2 with ⟨h2a, -⟩
              exact h2a
            · rcases h.2 with ⟨h2a, -⟩
              exact h2a
          · exact h.2.2
        rw [ih (c2 :: rest) (by simpa using hs) h2]
  intro s
  exact H s.length s le_rfl

/-- The two-character replacement's output starts with the input's head
whenever the head does not start an occurrence of the pattern. -/
theorem replace2_oo_head (rest : Str) (h : rest.head? ≠ some 'o') :
    (replace2 'o' 'o' ['o', 'u'] rest).head? = rest.head? := by
  match rest with
  | [] => rfl
  | [c] => rfl
  | c1 :: c2 :: r =>
    unfold replace2
    rw [if_neg]
    · rfl
    rintro ⟨rfl, -⟩
    exact h rfl

/-- The output of the `"oo"` replacement contains no `"oo"` occurrence. -/
theorem hasOO_replace2_oo : ∀ (s : Str), hasOO (replace2 'o' 'o' ['o', 'u'] s) = false := by
  have H : ∀ (n : Nat) (s : Str), s.length ≤ n →
      hasOO (replace2 'o' 'o' ['o', 'u'] s) = false := by
    intro n
    induction n with
    | zero =>
      intro s hs
      rw [List.length_eq_zero.mp (Nat.le_zero.mp hs)]
      rfl
    | succ n ih =>
      intro s hs
      match s with
      | [] => rfl
      | [c] => simp [replace2, hasOO]
      | c1 :: c2 :: rest =>
        simp only [List.length_cons, Nat.succ_le_succ_iff] at hs
        unfold replace2
        by_cases hc : c1 = 'o' ∧ c2 = 'o'
        · rw [if_pos hc]
          have hrec := ih rest (by omega)
          simp [hasOO, hrec]
        · rw [if_neg hc]
          simp only [hasOO, Bool.or_eq_false_iff, Bool.and_eq_false_iff]
          constructor
          · by_cases hco : c1 = 'o'
            · right
              have hrest : (c2 :: rest).head? ≠ some 'o' := by
                intro hh
                simp only [List.head?_cons, Option.some.injEq] at hh
                exact hc ⟨hco, hh⟩
              rw [replace2_oo_head (c2 :: rest) hrest]
              simp only [List.head?_cons, Option.some.injEq, decide_eq_false_iff_not]
              intro hh
              exact hc ⟨hco, hh⟩
            · exact Or.inl (by simp [hco])
          · exact ih (c2 :: rest) (by simpa using hs)
  intro s
  exact H s.length s le_rfl

/-- The lowercasing table never outputs a character that is again a key of
the table. -/
theorem lowerTable_no_out :
    lowerTable.all (fun q => (lowerTable.find? (fun p => p.1 = q.2)).isNone) = true := by
  decide

/-- Rust per-character lowercasing is idempotent. -/
theorem charLower_idem (c : Char) : charLower (charLower c) = charLower c := by
  cases hf : lowerTable.find? (fun p => p.1 = c) with
  | none =>
    have hcc : charLower c = c := by simp [charLower, hf]
    rw [hcc]
    exact hcc
  | some q =>
    have hcc : charLower c = q.2 := by simp [charLower, hf]
    rw [hcc]
    have hmem : q ∈ lowerTable := List.mem_of_find?_eq_some hf
    have hq := List.all_eq_true.mp lowerTable_no_out q hmem
    simp only [Option.isNone_iff_eq_none, decide_eq_true_eq] at hq
    simp [charLower, hq]

/-- Mapping a function that fixes every element is the identity. -/
theorem map_id_of_fixes {α : Type} (f : α → α) :
    ∀ (l : List α), (∀ x ∈ l, f x = x) → l.map f = l := by
  intro l
  induction l with
  | nil => intro _; rfl
  | cons c rest ih =>
    intro h
    simp only [List.map_cons]
    rw [h c (List.mem_cons_self c rest), ih (fun x hx => h x (List.mem_cons_of_mem c hx))]

/-- Every character of `normalize`'s output is fixed by lowercasing. -/
theorem normalize_lower_fixed (s : Str) : ∀ x ∈ normalize s, charLower x = x := by
  intro x hx
  unfold normalize at hx
  rcases mem_replace2 _ _ _ _ x hx with hx | hx
  swap
  · fin_cases hx <;> decide
  rcases mem_replace1 _ _ _ x hx with hx | hx
  swap
  · fin_cases hx <;> decide
  rcases mem_replace1 _ _ _ x hx with hx | hx
  swap
  · fin_cases hx <;> decide
  rcases mem_replace1 _ _ _ x hx with hx | hx
  swap
  · fin_cases hx <;> decide
  rcases mem_replace1 _ _ _ x hx with hx | hx
  swap
  · fin_cases hx <;> decide
  rcases mem_replace1 _ _ _ x hx with hx | hx
  swap
  · fin_cases hx <;> decide
  rcases mem_replace1 _ _ _ x hx with hx | hx
  swap
  · fin_cases hx <;> decide
  rcases mem_replace1 _ _ _ x hx with hx | hx
  swap
  · fin_cases hx <;> decide
  rcases mem_replace1 _ _ _ x hx with hx | hx
  swap
  · fin_cases hx <;> decide
  rcases List.mem_map.mp hx with ⟨y, -, rfl⟩
  exact charLower_idem y

/-- `normalize` is the identity on strings already in normal form: every
character fixed by lowercasing, none of the folded accented vowels, and no
`"oo"` substring. -/
theorem normalize_id_of_clean (t : Str) (hfix : ∀ x ∈ t, charLower x = x)
    (h1 : 'ā' ∉ t) (h2 : 'â' ∉ t) (h3 : 'ū' ∉ t) (h4 : 'û' ∉ t)
    (h5 : 'ē' ∉ t) (h6 : 'ê' ∉ t) (h7 : 'ō' ∉ t) (h8 : 'ô' ∉ t)
    (h9 : hasOO t = false) : normalize t = t := by
  unfold normalize
  rw [show strLower t = t from map_id_of_fixes charLower t hfix]
  rw [replace1_id 'ā' _ t h1]
  rw [replace1_id 'â' _ t h2]
  rw [replace1_id 'ū' _ t h3]
  rw [replace1_id 'û' _ t h4]
  rw [replace1_id 'ē' _ t h5]
  rw [replace1_id 'ê' _ t h6]
  rw [replace1_id 'ō' _ t h7]
  rw [replace1_id 'ô' _ t h8]
  exact replace2_oo_id t h9

theorem notin_normalize_aa (s : Str) : 'ā' ∉ normalize s := by
  unfold normalize
  apply not_mem_replace2 _ _ _ _ _ ?_ (by decide)
  apply not_mem_replace1 _ _ _ _ ?_ (by decide)
  apply not_mem_replace1 _ _ _ _ ?_ (by decide)
  apply not_mem_replace1 _ _ _ _ ?_ (by decide)
  apply not_mem_replace1 _ _ _ _ ?_ (by decide)
  apply not_mem_replace1 _ _ _ _ ?_ (by decide)
  apply not_mem_replace1 _ _ _ _ ?_ (by decide)
  apply not_mem_replace1 _ _ _ _ ?_ (by decide)
  exact not_mem_replace1_self _ _ (by decide) _

theorem notin_normalize_ac (s : Str) : 'â' ∉ normalize s := by
  unfold normalize
  apply not_mem_replace2 _ _ _ _ _ ?_ (by decide)
  apply not_mem_replace1 _ _ _ _ ?_ (by decide)
  apply not_mem_replace1 _ _ _ _ ?_ (by decide)
  apply not_mem_replace1 _ _ _ _ ?_ (by decide)
  apply not_mem_replace1 _ _ _ _ ?_ (by decide)
  apply not_mem_replace1 _ _ _ _ ?_ (by decide)
  apply not_mem_replace1 _ _ _ _ ?_ (by decide)
  exact not_mem_replace1_self _ _ (by decide) _

theorem notin_normalize_um (s : Str) : 'ū' ∉ normalize s := by
  unfold normalize
  apply not_mem_replace2 _ _ _ _ _ ?_ (by decide)
  apply not_mem_replace1 _ _ _ _ ?_ (by decide)
  apply not_mem_replace1 _ _ _ _ ?_ (by decide)
  apply not_mem_replace1 _ _ _ _ ?_ (by decide)
  apply not_mem_replace1 _ _ _ _ ?_ (by decide)
  apply not_mem_replace1 _ _ _ _ ?_ (by decide)
  exact not_mem_replace1_self _ _ (by decide) _

theorem notin_normalize_uc (s : Str) : 'û' ∉ normalize s := by
  unfold normalize
  apply not_mem_replace2 _ _ _ _ _ ?_ (by decide)
  apply not_mem_replace1 _ _ _ _ ?_ (by decide)
  apply not_mem_replace1 _ _ _ _ ?_ (by decide)
  apply not_mem_replace1 _ _ _ _ ?_ (by decide)
  apply not_mem_replace1 _ _ _ _ ?_ (by decide)
  exact not_mem_replace1_self _ _ (by decide) _

theorem notin_normalize_em (s : Str) : 'ē' ∉ normalize s := by
  unfold normalize
  apply not_mem_replace2 _ _ _ _ _ ?_ (by decide)
  apply not_mem_replace1 _ _ _ _ ?_ (by decide)
  apply not_mem_replace1 _ _ _ _ ?_ (by decide)
  apply not_mem_replace1 _ _ _ _ ?_ (by decide)
  exact not_mem_replace1_self _ _ (by decide) _

theorem notin_normalize_ec (s : Str) : 'ê' ∉ normalize s := by
  unfold normalize
  apply not_mem_replace2 _ _ _ _ _ ?_ (by decide)
  apply not_mem_replace1 _ _ _ _ ?_ (by decide)
  apply not_mem_replace1 _ _ _ _ ?_ (by decide)
  exact not_mem_replace1_self _ _ (by decide) _

theorem notin_normalize_om (s : Str) : 'ō' ∉ normalize s := by
  unfold normalize
  apply not_mem_replace2 _ _ _ _ _ ?_ (by decide)
  apply not_mem_replace1 _ _ _ _ ?_ (by decide)
  exact not_mem_replace1_self _ _ (by decide) _

theorem notin_normalize_oc (s : Str) : 'ô' ∉ normalize s := by
  unfold normalize
  apply not_mem_replace2 _ _ _ _ _ ?_ (by decide)
  exact not_mem_replace1_self _ _ (by decide) _

theorem hasOO_normalize (s : Str) : hasOO (normalize s) = false :=
  hasOO_replace2_oo _

/-- C10: the author-name normalizer is idempotent, and its output contains
none of the folded characters `ā, â, ū, û, ē, ê, ō, ô` and no `"oo"`
substring. -/
theorem C10_normalize_idem (s : Str) :
    normalize (normalize s) = normalize s
    ∧ (∀ d, d ∈ (['ā', 'â', 'ū', 'û', 'ē', 'ê', 'ō', 'ô'] : List Char) → d ∉ normalize s)
    ∧ hasOO (normalize s) = false := by
  refine ⟨?_, ?_, hasOO_normalize s⟩
  · exact normalize_id_of_clean (normalize s) (normalize_lower_fixed s)
      (notin_normalize_aa s) (notin_normalize_ac s) (notin_normalize_um s)
      (notin_normalize_uc s) (notin_normalize_em s) (notin_normalize_ec s)
      (notin_normalize_om s) (notin_normalize_oc s) (hasOO_normalize s)
  · intro d hd
    fin_cases hd
    exacts [notin_normalize_aa s, notin_normalize_ac s, notin_normalize_um s,
      notin_normalize_uc s, notin_normalize_em s, notin_normalize_ec s,
      notin_normalize_om s, notin_normalize_oc s]

/-- C10 witness: the idempotence and fixed-point facts instantiated on a
concrete romanized name. -/
theorem C10_normalize_idem_witness :
    normalize (normalize ("Ōoka Shōhei".data)) = normalize ("Ōoka Shōhei".data)
    ∧ 'ō' ∉ normalize ("Ōoka Shōhei".data)
    ∧ normalize ("Ōoka Shōhei".data) = "ouoka shouhei".data :=
  ⟨(C10_normalize_idem ("Ōoka Shōhei".data)).1,
   (C10_normalize_idem ("Ōoka Shōhei".data)).2.1 'ō' (by decide), by decide⟩


/-! ## Claim C5: author ordering -/

/-- Strict string order, as a relation. -/
def SLt (a b : Str) : Prop := strLt a b = true

theorem strLt_irrefl : ∀ a : Str, strLt a a = false := by
  intro a
  induction a with
  | nil => rfl
  | cons x xs ih => simp [strLt, ih]

theorem strLt_trichotomy : ∀ a b : Str, strLt a b = true ∨ a = b ∨ strLt b a = true := by
  intro a
  induction a with
  | nil =>
    intro b
    cases b with
    | nil => exact Or.inr (Or.inl rfl)
    | cons y ys => exact Or.inl rfl
  | cons x xs ih =>
    intro b
    cases b with
    | nil => exact Or.inr (Or.inr rfl)
    | cons y ys =>
      rcases lt_trichotomy x y with h | h | h
      · exact Or.inl (by simp [strLt, h])
      · subst h
        rcases ih ys with h' | h' | h'
        · exact Or.inl (by simp [strLt, h'])
        · exact Or.inr (Or.inl (by rw [h']))
        · exact Or.inr (Or.inr (by simp [strLt, h']))
      · exact Or.inr (Or.inr (by simp [strLt, h]))

theorem strLt_trans : ∀ a b c : Str, strLt a b = true → strLt b c = true → strLt a c = true := by
  intro a
  induction a with
  | nil =>
    intro b c hab hbc
    cases c with
    | nil =>
      cases b with
      | nil => exact hab
      | cons y ys => exact absurd hbc (by simp [strLt])
    | cons z zs => rfl
  | cons x xs ih =>
    intro b c hab hbc
    cases b with
    | nil => exact absurd hab (by simp [strLt])
    | cons y ys =>
      cases c with
      | nil => exact absurd hbc (by simp [strLt])
      | cons z zs =>
        simp only [strLt, Bool.or_eq_true, Bool.and_eq_true, decide_eq_true_eq] at hab hbc ⊢
        rcases hab with h1 | ⟨he1, h1⟩
        · rcases hbc with h2 | ⟨he2, h2⟩
          · exact Or.inl (lt_trans h1 h2)
          · exact Or.inl (he2 ▸ h1)
        · rcases hbc with h2 | ⟨he2, h2⟩
          · exact Or.inl (he1 ▸ h2)
          · exact Or.inr ⟨he1.trans he2, ih ys zs h1 h2⟩

/-- A strictly sorted list has no duplicates. -/
theorem chain'_SLt_nodup (l : List Str) (hl : List.Chain' SLt l) : l.Nodup := by
  haveI : IsTrans Str SLt := ⟨fun a b c hab hbc => strLt_trans a b c hab hbc⟩
  have hp := List.chain'_iff_pairwise.mp hl
  refine hp.imp ?_
  intro a b hab heq
  subst heq
  rw [SLt, strLt_irrefl a] at hab
  exact Bool.false_ne_true hab

theorem mem_insertSorted (x y : Str) : ∀ (l : List Str),
    y ∈ insertSorted x l ↔ y = x ∨ y ∈ l := by
  intro l
  induction l with
  | nil => simp [insertSorted]
  | cons z zs ih =>
    unfold insertSorted
    by_cases h1 : strLt x z = true
    · rw [if_pos h1]
      simp only [List.mem_cons]
    · rw [if_neg h1]
      by_cases h2 : x = z
      · rw [if_pos h2]
        subst h2
        simp only [List.mem_cons]
        tauto
      · rw [if_neg h2]
        simp only [List.mem_cons, ih]
        tauto

theorem head?_insertSorted (x : Str) : ∀ (l : List Str),
    (insertSorted x l).head? = some x ∨ (insertSorted x l).head? = l.head? := by
  intro l
  cases l with
  | nil => exact Or.inl rfl
  | cons z zs =>
    unfold insertSorted
    by_cases h1 : strLt x z = true
    · rw [if_pos h1]; exact Or.inl rfl
    · rw [if_neg h1]
      by_cases h2 : x = z
      · rw [if_pos h2]; exact Or.inr rfl
      · rw [if_neg h2]; exact Or.inr rfl

theorem chain'_insertSorted (x : Str) : ∀ (l : List Str),
    List.Chain' SLt l → List.Chain' SLt (insertSorted x l) := by
  intro l
  induction l with
  | nil => intro _; simp [insertSorted]
  | cons z zs ih =>
    intro hc
    unfold insertSorted
    by_cases h1 : strLt x z = true
    · rw [if_pos h1]
      exact List.chain'_cons.mpr ⟨h1, hc⟩
    · rw [if_neg h1]
      by_cases h2 : x = z
      · rw [if_pos h2]; exact hc
      · rw [if_neg h2]
        have hzx : SLt z x := by
          rcases strLt_trichotomy x z with h | h | h
          · exact absurd h h1
          · exact absurd h h2
          · exact h
        have htail : List.Chain' SLt (insertSorted x zs) := ih hc.tail
        rcases hzs : insertSorted x zs with _ | ⟨w, ws⟩
        · simp
        · rw [List.chain'_cons]
          refine ⟨?_, hzs ▸ htail⟩
          rcases head?_insertSorted x zs with hh | hh <;> rw [hzs] at hh
          · simp only [List.head?_cons, Option.some.injEq] at hh
            exact hh ▸ hzx
          · cases zs with
            | nil => simp at hh
            | cons z' zs' =>
              simp only [List.head?_cons, Option.some.injEq] at hh
              have := List.chain'_cons.mp hc
              exact hh ▸ this.1

/-- The category capture of the author regex on a line, if any. -/
def lineCat (l : Str) : Option Str := (findAuthorCapture l).map (fun r => r.1)

/-- The (trimmed) writer names captured on a list of lines, in order. -/
def writerNamesOf (lines : List Str) : List Str :=
  lines.filterMap (fun l =>
    match findAuthorCapture l with
    | some (cat, name) => if cat = "Dessin".data then none else some (trimStr name)
    | none => none)

/-- The (trimmed) artist names captured on a list of lines, in order. -/
def artistNamesOf (lines : List Str) : List Str :=
  lines.filterMap (fun l =>
    match findAuthorCapture l with
    | some (cat, name) => if cat = "Dessin".data then some (trimStr name) else none
    | none => none)

theorem matchCategoryAt_cases {s cat r} (h : matchCategoryAt s = some (cat, r)) :
    cat = "Scénario".data ∨ cat = "Dessin".data := by
  unfold matchCategoryAt at h
  by_cases h1 : List.isPrefixOf ("Scénario".data) s = true
  · rw [if_pos h1] at h
    exact Or.inl (by injection h with h'; exact (Prod.mk.injEq _ _ _ _ ▸ h').1.symm ▸ rfl)
  · rw [if_neg h1] at h
    by_cases h2 : List.isPrefixOf ("Dessin".data) s = true
    · rw [if_pos h2] at h
      exact Or.inr (by injection h with h'; exact (Prod.mk.injEq _ _ _ _ ▸ h').1.symm ▸ rfl)
    · rw [if_neg h2] at h
      exact absurd h (by simp)

theorem matchAuthorAt_cases {s cat name} (h : matchAuthorAt s = some (cat, name)) :
    cat = "Scénario".data ∨ cat = "Dessin".data := by
  unfold matchAuthorAt at h
  rcases hc : matchCategoryAt s with _ | ⟨cat', r⟩
  · simp [hc] at h
  · simp only [hc] at h
    rcases hr : matchAuthorRest r with _ | nm
    · simp [hr] at h
    · simp only [hr, Option.map_some', Option.some.injEq, Prod.mk.injEq] at h
      exact h.1 ▸ matchCategoryAt_cases hc

theorem findAuthorCapture_cases : ∀ {l : Str} {cat name},
    findAuthorCapture l = some (cat, name) →
    cat = "Scénario".data ∨ cat = "Dessin".data := by
  intro l
  induction l with
  | nil => intro cat name h; exact absurd h (by simp [findAuthorCapture])
  | cons c rest ih =>
    intro cat name h
    unfold findAuthorCapture at h
    rcases hm : matchAuthorAt (c :: rest) with _ | r
    · rw [hm] at h
      exact ih h
    · rw [hm] at h
      injection h with h'
      subst h'
      exact matchAuthorAt_cases hm


/-- Processing info lines that carry no artist credit leaves the penciller
set unchanged and grows the writers set by exactly the captured writer
names. -/
theorem writer_phase : ∀ (lw : List Str) (st : List Nat × List Str × List Str),
    (∀ l ∈ lw, lineCat l ≠ some ("Dessin".data)) →
    ((lw.foldl viStep st).2.2 = st.2.2
      ∧ (List.Chain' SLt st.2.1 → List.Chain' SLt (lw.foldl viStep st).2.1)
      ∧ (∀ x, x ∈ (lw.foldl viStep st).2.1 ↔ x ∈ st.2.1 ∨ x ∈ writerNamesOf lw)) := by
  intro lw
  induction lw with
  | nil =>
    intro st h
    refine ⟨rfl, fun hc => hc, ?_⟩
    intro x
    simp [writerNamesOf]
  | cons l rest ih =>
    intro st h
    obtain ⟨ys, w, p⟩ := st
    have hl : lineCat l ≠ some ("Dessin".data) := h l (List.mem_cons_self l rest)
    have hrest : ∀ l' ∈ rest, lineCat l' ≠ some ("Dessin".data) :=
      fun l' hl' => h l' (List.mem_cons_of_mem l hl')
    rw [List.foldl_cons]
    rcases hcap : findAuthorCapture l with _ | ⟨cat, name⟩
    · have hwn : writerNamesOf (l :: rest) = writerNamesOf rest := by
        simp [writerNamesOf, List.filterMap_cons, hcap]
      rcases hy : findYearCapture l with _ | y
      · rw [show viStep (ys, w, p) l = (ys, w, p) from by unfold viStep; rw [hcap, hy]]
        obtain ⟨A, B, C⟩ := ih (ys, w, p) hrest
        exact ⟨A, B, fun x => by rw [C x, hwn]⟩
      · rw [show viStep (ys, w, p) l = (insertSortedNat (natOfDigits y) ys, w, p) from by
          unfold viStep; rw [hcap, hy]]
        obtain ⟨A, B, C⟩ := ih (insertSortedNat (natOfDigits y) ys, w, p) hrest
        exact ⟨A, B, fun x => by rw [C x, hwn]⟩
    · have hcd : cat ≠ "Dessin".data := by
        intro he
        exact hl (by simp [lineCat, hcap, he])
      have hstep : viStep (ys, w, p) l = (ys, insertSorted (trimStr name) w, p) := by
        unfold viStep; rw [hcap]; simp [hcd]
      rw [hstep]
      obtain ⟨A, B, C⟩ := ih (ys, insertSorted (trimStr name) w, p) hrest
      refine ⟨A, fun hc => B (chain'_insertSorted _ _ hc), ?_⟩
      intro x
      rw [C x, mem_insertSorted]
      have hwn : writerNamesOf (l :: rest) = trimStr name :: writerNamesOf rest := by
        simp [writerNamesOf, List.filterMap_cons, hcap, hcd]
      rw [hwn]
      simp only [List.mem_cons]
      tauto

/-- Processing info lines that carry no writer credit leaves the writers
set unchanged and grows the penciller set by exactly the captured artist
names that are not already writers. -/
theorem artist_phase : ∀ (la : List Str) (st : List Nat × List Str × List Str),
    (∀ l ∈ la, lineCat l ≠ some ("Scénario".data)) →
    ((la.foldl viStep st).2.1 = st.2.1
      ∧ (List.Chain' SLt st.2.2 → List.Chain' SLt (la.foldl viStep st).2.2)
      ∧ (∀ x, x ∈ (la.foldl viStep st).2.2 ↔
          x ∈ st.2.2 ∨ (x ∈ artistNamesOf la ∧ x ∉ st.2.1))) := by
  intro la
  induction la with
  | nil =>
    intro st h
    refine ⟨rfl, fun hc => hc, ?_⟩
    intro x
    simp [artistNamesOf]
  | cons l rest ih =>
    intro st h
    obtain ⟨ys, w, p⟩ := st
    have hl : lineCat l ≠ some ("Scénario".data) := h l (List.mem_cons_self l rest)
    have hrest : ∀ l' ∈ rest, lineCat l' ≠ some ("Scénario".data) :=
      fun l' hl' => h l' (List.mem_cons_of_mem l hl')
    rw [List.foldl_cons]
    rcases hcap : findAuthorCapture l with _ | ⟨cat, name⟩
    · have han : artistNamesOf (l :: rest) = artistNamesOf rest := by
        simp [artistNamesOf, List.filterMap_cons, hcap]
      rcases hy : findYearCapture l with _ | y
      · rw [show viStep (ys, w, p) l = (ys, w, p) from by unfold viStep; rw [hcap, hy]]
        obtain ⟨A, B, C⟩ := ih (ys, w, p) hrest
        exact ⟨A, B, fun x => by rw [C x, han]⟩
      · rw [show viStep (ys, w, p) l = (insertSortedNat (natOfDigits y) ys, w, p) from by
          unfold viStep; rw [hcap, hy]]
        obtain ⟨A, B, C⟩ := ih (insertSortedNat (natOfDigits y) ys, w, p) hrest
        exact ⟨A, B, fun x => by rw [C x, han]⟩
    · have hcs : cat = "Dessin".data := by
        rcases findAuthorCapture_cases hcap with h' | h'
        · exact absurd (by simp [lineCat, hcap, h']) hl
        · exact h'
      have han : artistNamesOf (l :: rest) = trimStr name :: artistNamesOf rest := by
        simp [artistNamesOf, List.filterMap_cons, hcap, hcs]
      by_cases hmem : w.contains (trimStr name) = true
      · have hin : trimStr name ∈ w := List.elem_iff.mp hmem
        have hstep : viStep (ys, w, p) l = (ys, w, p) := by
          unfold viStep; rw [hcap]; simp [hcs, hin]
        rw [hstep]
        obtain ⟨A, B, C⟩ := ih (ys, w, p) hrest
        refine ⟨A, B, ?_⟩
        intro x
        rw [C x, han]
        simp only [List.mem_cons]
        constructor
        · rintro (hx | ⟨hx, hnx⟩)
          · exact Or.inl hx
          · exact Or.inr ⟨Or.inr hx, hnx⟩
        · rintro (hx | ⟨hx | hx, hnx⟩)
          · exact Or.inl hx
          · exact absurd (hx ▸ hin) hnx
          · exact Or.inr ⟨hx, hnx⟩
      · have hnin : trimStr name ∉ w := fun hx => hmem (List.elem_iff.mpr hx)
        have hstep : viStep (ys, w, p) l = (ys, w, insertSorted (trimStr name) p) := by
          unfold viStep; rw [hcap]; simp [hcs, hnin]
        rw [hstep]
        obtain ⟨A, B, C⟩ := ih (ys, w, insertSorted (trimStr name) p) hrest
        refine ⟨A, fun hc => B (chain'_insertSorted _ _ hc), ?_⟩
        intro x
        rw [C x, han, mem_insertSorted]
        simp only [List.mem_cons]
        constructor
        · rintro ((hx | hx) | ⟨hx, hnx⟩)
          · exact Or.inr ⟨Or.inl hx, hx ▸ hnin⟩
          · exact Or.inl hx
          · exact Or.inr ⟨Or.inr hx, hnx⟩
        · rintro (hx | ⟨hx | hx, hnx⟩)
          · exact Or.inl (Or.inr hx)
          · exact Or.inl (Or.inl hx)
          · exact Or.inr ⟨hx, hnx⟩

theorem writerNamesOf_append (l1 l2 : List Str) :
    writerNamesOf (l1 ++ l2) = writerNamesOf l1 ++ writerNamesOf l2 := by
  unfold writerNamesOf
  rw [List.filterMap_append]

theorem artistNamesOf_append (l1 l2 : List Str) :
    artistNamesOf (l1 ++ l2) = artistNamesOf l1 ++ artistNamesOf l2 := by
  unfold artistNamesOf
  rw [List.filterMap_append]

theorem writerNamesOf_artist_lines (la : List Str)
    (ha : ∀ l ∈ la, lineCat l ≠ some ("Scénario".data)) : writerNamesOf la = [] := by
  rw [writerNamesOf, List.filterMap_eq_nil_iff]
  intro l hl
  rcases hcap : findAuthorCapture l with _ | ⟨cat, name⟩
  · rfl
  · have hcs : cat = "Dessin".data := by
      rcases findAuthorCapture_cases hcap with h' | h'
      · exact absurd (by simp [lineCat, hcap, h']) (ha l hl)
      · exact h'
    simp [hcs]

theorem artistNamesOf_writer_lines (lw : List Str)
    (hw : ∀ l ∈ lw, lineCat l ≠ some ("Dessin".data)) : artistNamesOf lw = [] := by
  rw [artistNamesOf, List.filterMap_eq_nil_iff]
  intro l hl
  rcases hcap : findAuthorCapture l with _ | ⟨cat, name⟩
  · rfl
  · have hcd : cat ≠ "Dessin".data := by
      intro he
      exact hw l hl (by simp [lineCat, hcap, he])
    simp [hcd]

/-- C5: on a catalog page whose writer-credit lines all precede its
artist-credit lines, the extracted author string is the hyphen-joined
concatenation of the writers and of the artists not already credited as
writers, each group strictly sorted and duplicate-free; and the concrete
writer credits {B, A} with artist credits {A, C} yield exactly "A-B-C". -/
theorem C5_author_ordering :
    (∀ (lw la : List Str),
      (∀ l ∈ lw, lineCat l ≠ some ("Dessin".data)) →
      (∀ l ∈ la, lineCat l ≠ some ("Scénario".data)) →
      ∃ W A : List Str,
        (volumeInfoNew (lw ++ la)).authors = joinHyphen (W ++ A)
        ∧ List.Chain' SLt W ∧ W.Nodup ∧ List.Chain' SLt A ∧ A.Nodup
        ∧ (∀ x, x ∈ W ↔ x ∈ writerNamesOf (lw ++ la))
        ∧ (∀ x, x ∈ A ↔ x ∈ artistNamesOf (lw ++ la) ∧ x ∉ writerNamesOf (lw ++ la)))
    ∧ (volumeInfoNew ["Scénario :  B".data, "Scénario :  A".data,
        "Dessin :  A".data, "Dessin :  C".data]).authors = "A-B-C".data := by
  constructor
  · intro lw la hw ha
    obtain ⟨A1, B1, C1⟩ := writer_phase lw ([], [], []) hw
    obtain ⟨A2, B2, C2⟩ := artist_phase la (lw.foldl viStep ([], [], [])) ha
    have hWmem : ∀ x, x ∈ (lw.foldl viStep ([], [], [])).2.1 ↔
        x ∈ writerNamesOf (lw ++ la) := by
      intro x
      rw [C1 x, writerNamesOf_append, writerNamesOf_artist_lines la ha]
      simp
    refine ⟨(lw.foldl viStep ([], [], [])).2.1, ((lw ++ la).foldl viStep ([], [], [])).2.2,
      ?_, ?_, ?_, ?_, ?_, hWmem, ?_⟩
    · rw [volumeInfoNew, List.foldl_append, A2]
    · exact B1 List.chain'_nil
    · exact chain'_SLt_nodup _ (B1 List.chain'_nil)
    · rw [List.foldl_append]
      refine B2 ?_
      rw [A1]
      exact List.chain'_nil
    · rw [List.foldl_append]
      exact chain'_SLt_nodup _ (B2 (by rw [A1]; exact List.chain'_nil))
    · intro x
      rw [List.foldl_append, C2 x, A1]
      have han : artistNamesOf (lw ++ la) = artistNamesOf la := by
        rw [artistNamesOf_append, artistNamesOf_writer_lines lw hw]
        simp
      rw [han, hWmem x]
      simp
  · decide

/-- C5 witness: the ordering theorem applied to a concrete page with one
writer line followed by one artist line. -/
theorem C5_author_ordering_witness :
    ∃ W A : List Str,
      (volumeInfoNew (["Scénario :  B".data] ++ ["Dessin :  C".data])).authors =
          joinHyphen (W ++ A)
      ∧ List.Chain' SLt W ∧ W.Nodup ∧ List.Chain' SLt A ∧ A.Nodup
      ∧ (∀ x, x ∈ W ↔ x ∈ writerNamesOf (["Scénario :  B".data] ++ ["Dessin :  C".data]))
      ∧ (∀ x, x ∈ A ↔ x ∈ artistNamesOf (["Scénario :  B".data] ++ ["Dessin :  C".data])
          ∧ x ∉ writerNamesOf (["Scénario :  B".data] ++ ["Dessin :  C".data])) :=
  C5_author_ordering.1 ["Scénario :  B".data] ["Dessin :  C".data]
    (by decide) (by decide)



/-! ## Claim C9: rate-limiting delay before every fetch -/

/-- Every fetch event in the trace is immediately preceded by a two-second
sleep event. -/
def goodTrace (t : List Ev) : Prop :=
  ∀ i r, t.get? i = some (Ev.fetch r) → ∃ j, i = j + 1 ∧ t.get? j = some (Ev.sleep 2)

theorem goodTrace_nil : goodTrace [] := by
  intro i r hi
  simp at hi

theorem goodTrace_pair (r : Req) : goodTrace [Ev.sleep 2, Ev.fetch r] := by
  intro i r' hi
  match i with
  | 0 => simp at hi
  | 1 => exact ⟨0, rfl, rfl⟩
  | n + 2 => simp at hi

theorem goodTrace_append {a b : List Ev} (ha : goodTrace a) (hb : goodTrace b) :
    goodTrace (a ++ b) := by
  intro i r hi
  by_cases h : i < a.length
  · rw [List.get?_append h] at hi
    obtain ⟨j, rfl, hj⟩ := ha i r hi
    exact ⟨j, rfl, by rw [List.get?_append (by omega)]; exact hj⟩
  · push_neg at h
    have hb' : b.get? (i - a.length) = some (.fetch r) := by
      rw [List.get?_append_right h] at hi
      exact hi
    obtain ⟨j, hj1, hj2⟩ := hb _ r hb'
    refine ⟨i - 1, by omega, ?_⟩
    rw [List.get?_append_right (by omega)]
    have he : i - 1 - a.length = j := by omega
    rw [he]
    exact hj2

theorem getLink_trace (net : Net) (title : Str) (volume : Option Nat) (csrf query : Str)
    (c : Cache) :
    (getLink net title volume csrf query c).2.2 = [Ev.sleep 2, Ev.fetch (Req.search csrf query)] := by
  unfold getLink
  generalize getLinkLoop title volume (tierNodes net title query) none c = res
  rcases res with ⟨r, c'⟩
  cases r with
  | error m => rfl
  | ok o => cases o <;> rfl

theorem fetchInfo_trace (net : Net) (url : Str) :
    (fetchInfo net url).2 = [Ev.sleep 2, Ev.fetch (Req.book url)] := by
  unfold fetchInfo
  cases net.book url <;> rfl

theorem findBook_goodTrace (net : Net) (c : Cache) (title : Str) (volume : Option Nat) :
    goodTrace (findBook net c title volume).2.2 := by
  unfold findBook
  dsimp only
  cases cLookup c ⟨title, volume⟩ with
  | some u => exact goodTrace_nil
  | none =>
    dsimp only
    cases net.home with
    | none => exact goodTrace_pair _
    | some csrf =>
      dsimp only
      have h1 := getLink_trace net title volume csrf (strLower title) c
      rcases hG : getLink net title volume csrf (strLower title) c with ⟨r1, c1, t1⟩
      rw [hG] at h1
      dsimp only at h1
      cases r1 with
      | ok u => exact goodTrace_append (goodTrace_pair _) (h1 ▸ goodTrace_pair _)
      | error m =>
        dsimp only
        by_cases hh : hasHyphen title = true
        · rw [if_pos hh]
          have h2 := getLink_trace net (stripHyphenSpace title) volume csrf
            (strLower (stripHyphenSpace title)) c1
          exact goodTrace_append (goodTrace_append (goodTrace_pair _) (h1 ▸ goodTrace_pair _))
            (h2 ▸ goodTrace_pair _)
        · rw [if_neg hh]
          exact goodTrace_append (goodTrace_pair _) (h1 ▸ goodTrace_pair _)

theorem fetchInfo_goodTrace (net : Net) (url : Str) : goodTrace (fetchInfo net url).2 :=
  (fetchInfo_trace net url) ▸ goodTrace_pair _

theorem check_goodTrace (net : Net) (b : Book) (entries : List ZEntry) :
    goodTrace (check net b entries).2 := by
  unfold check
  have h1 := fetchInfo_goodTrace net b.url
  rcases hF : fetchInfo net b.url with ⟨r, t⟩
  rw [hF] at h1
  dsimp only at h1
  cases r with
  | error m => exact h1
  | ok info =>
    cases checkLoop b entries with
    | error m => exact h1
    | ok l => exact h1

/-- C9: every outbound page fetch performed by the client (the homepage
fetch and search submission inside `find_book`, including the hyphen-retry
and cache-miss paths, and the book-page fetch of `fetch_info` / `check`) is
immediately preceded by a fixed two-second sleep. -/
theorem C9_delay_before_fetch :
    (∀ (net : Net) (c : Cache) (title : Str) (volume : Option Nat),
        goodTrace (findBook net c title volume).2.2)
    ∧ (∀ (net : Net) (url : Str), goodTrace (fetchInfo net url).2)
    ∧ (∀ (net : Net) (b : Book) (entries : List ZEntry),
        goodTrace (check net b entries).2) :=
  ⟨findBook_goodTrace, fetchInfo_goodTrace, check_goodTrace⟩



/-! ## Claim C7: fail-fast archive inspection -/

theorem checkLoop_cons_skip {b : Book} {e : ZEntry} {rest : List ZEntry}
    (h : e.isFile = false) : checkLoop b (e :: rest) = checkLoop b rest := by
  conv_lhs => rw [checkLoop.eq_def]
  simp [h]

theorem checkLoop_cons_date {b : Book} {e : ZEntry} {rest : List ZEntry}
    (h1 : e.isFile = true) (h2 : check_date e.date = false) :
    checkLoop b (e :: rest) = .ok [.date] := by
  unfold checkLoop
  simp [h1, h2]

theorem checkLoop_cons_img {b : Book} {e : ZEntry} {rest : List ZEntry} {f : Error}
    (h1 : e.isFile = true) (h2 : check_date e.date = true)
    (h3 : checkImage b e = .ok (some f)) : checkLoop b (e :: rest) = .ok [f] := by
  unfold checkLoop
  simp [h1, h2, h3]

theorem checkLoop_cons_err {b : Book} {e : ZEntry} {rest : List ZEntry} {m : String}
    (h1 : e.isFile = true) (h2 : check_date e.date = true)
    (h3 : checkImage b e = .error m) : checkLoop b (e :: rest) = .error m := by
  unfold checkLoop
  simp [h1, h2, h3]

theorem checkLoop_cons_ok {b : Book} {e : ZEntry} {rest : List ZEntry}
    (h1 : e.isFile = true) (h2 : check_date e.date = true)
    (h3 : checkImage b e = .ok none) : checkLoop b (e :: rest) = checkLoop b rest := by
  conv_lhs => rw [checkLoop.eq_def]
  simp [h1, h2, h3]

/-- `check_image` can only report the `Width` or `Exif` finding. -/
theorem checkImage_finding {b : Book} {e : ZEntry} {f : Error}
    (h : checkImage b e = .ok (some f)) : f = .width ∨ f = .exif := by
  unfold checkImage at h
  by_cases hb : e.bytesOk = true
  · rw [if_neg (by simp [hb])] at h
    rcases hw : e.width with _ | w
    · rw [hw] at h
      exact absurd h (by simp)
    · rw [hw] at h
      dsimp only at h
      by_cases hbad : widthBad b.width w = true
      · rw [if_pos hbad] at h
        injection h with h'
        injection h' with h''
        exact Or.inl h''.symm
      · rw [if_neg hbad] at h
        rcases hx : e.exif with _ | _ | _ <;> rw [hx] at h
        · injection h with h'
          injection h' with h''
          exact Or.inr h''.symm
        · exact absurd h (by simp)
        · exact absurd h (by simp)
  · rw [if_pos (by simp [hb])] at h
    exact absurd h (by simp)

/-- The per-entry loop returns at most one finding, drawn from
`Date`/`Width`/`Exif`. -/
theorem checkLoop_shape (b : Book) : ∀ (entries : List ZEntry) (l : List Error),
    checkLoop b entries = .ok l →
    l = [] ∨ ∃ f, l = [f] ∧ (f = .date ∨ f = .width ∨ f = .exif) := by
  intro entries
  induction entries with
  | nil =>
    intro l h
    injection h with h'
    exact Or.inl h'.symm
  | cons e rest ih =>
    intro l h
    by_cases hf : e.isFile = true
    · by_cases hd : check_date e.date = true
      · rcases hi : checkImage b e with m | o
        · rw [checkLoop_cons_err hf hd hi] at h
          exact absurd h (by simp)
        · rcases o with _ | f
          · rw [checkLoop_cons_ok hf hd hi] at h
            exact ih l h
          · rw [checkLoop_cons_img hf hd hi] at h
            injection h with h'
            exact Or.inr ⟨f, h'.symm, Or.inr (checkImage_finding hi)⟩
      · rw [checkLoop_cons_date hf (by simpa using hd)] at h
        injection h with h'
        exact Or.inr ⟨.date, h'.symm, Or.inl rfl⟩
    · rw [checkLoop_cons_skip (by simpa using hf)] at h
      exact ih l h

/-- Once an entry produces a finding, the loop result does not depend on
the remaining entries: they are not inspected. -/
theorem checkLoop_stops (b : Book) :
    ∀ (pre : List ZEntry), checkLoop b pre = .ok [] →
      ∀ (e : ZEntry), e.isFile = true →
      (check_date e.date = false ∨ ∃ f, checkImage b e = .ok (some f)) →
      ∀ rest rest', checkLoop b (pre ++ e :: rest) = checkLoop b (pre ++ e :: rest') := by
  intro pre
  induction pre with
  | nil =>
    intro _ e hf hbad rest rest'
    rcases hbad with hd | ⟨f, hi⟩
    · rw [List.nil_append, List.nil_append, checkLoop_cons_date hf hd,
        checkLoop_cons_date hf hd]
    · by_cases hd : check_date e.date = true
      · rw [List.nil_append, List.nil_append, checkLoop_cons_img hf hd hi,
          checkLoop_cons_img hf hd hi]
      · rw [List.nil_append, List.nil_append,
          checkLoop_cons_date hf (by simpa using hd),
          checkLoop_cons_date hf (by simpa using hd)]
  | cons p pre' ih =>
    intro hpre e hf hbad rest rest'
    by_cases hpf : p.isFile = true
    · by_cases hpd : check_date p.date = true
      · rcases hpi : checkImage b p with m | o
        · rw [checkLoop_cons_err hpf hpd hpi] at hpre
          exact absurd hpre (by simp)
        · rcases o with _ | f
          · rw [checkLoop_cons_ok hpf hpd hpi] at hpre
            rw [List.cons_append, List.cons_append, checkLoop_cons_ok hpf hpd hpi,
              checkLoop_cons_ok hpf hpd hpi]
            exact ih hpre e hf hbad rest rest'
          · rw [checkLoop_cons_img hpf hpd hpi] at hpre
            injection hpre with h'
            exact absurd h' (by simp)
      · rw [checkLoop_cons_date hpf (by simpa using hpd)] at hpre
        injection hpre with h'
        exact absurd h' (by simp)
    · rw [checkLoop_cons_skip (by simpa using hpf)] at hpre
      rw [List.cons_append, List.cons_append, checkLoop_cons_skip (by simpa using hpf),
        checkLoop_cons_skip (by simpa using hpf)]
      exact ih hpre e hf hbad rest rest'

/-- C7: the findings of `check` split into the metadata findings
(`Authors`/`Year`) followed by at most one archive finding from
`Date`/`Width`/`Exif`; and once an entry yields a `Date`, `Width` or
`Exif` finding, subsequent entries are not inspected (changing them does
not change the result). -/
theorem C7_fail_fast :
    (∀ (net : Net) (b : Book) (entries : List ZEntry) (l : List Error),
      (check net b entries).1 = .ok l →
      ∃ meta arch, l = meta ++ arch
        ∧ (∀ f ∈ meta, (∃ s, f = .authors s) ∨ ∃ ys, f = .year ys)
        ∧ arch.length ≤ 1
        ∧ (∀ f ∈ arch, f = .date ∨ f = .width ∨ f = .exif))
    ∧ (∀ (b : Book) (pre : List ZEntry) (e : ZEntry),
        checkLoop b pre = .ok [] → e.isFile = true →
        (check_date e.date = false ∨ ∃ f, checkImage b e = .ok (some f)) →
        ∀ rest rest', checkLoop b (pre ++ e :: rest) = checkLoop b (pre ++ e :: rest')) := by
  constructor
  · intro net b entries l h
    unfold check at h
    rcases hF : fetchInfo net b.url with ⟨r, t⟩
    rw [hF] at h
    cases r with
    | error m => exact absurd h (by simp)
    | ok info =>
      rcases hL : checkLoop b entries with m | l'
      · rw [hL] at h
        exact absurd h (by simp)
      · rw [hL] at h
        dsimp only at h
        injection h with h'
        refine ⟨checkBookMetadata info b, l', h'.symm, ?_, ?_, ?_⟩
        · intro f hf
          unfold checkBookMetadata at hf
          rcases List.mem_append.mp hf with hm | hm
          · by_cases hc : normalize info.authors ≠ normalize b.authors
            · rw [if_pos hc] at hm
              rcases List.mem_singleton.mp hm with rfl
              exact Or.inl ⟨info.authors, rfl⟩
            · rw [if_neg hc] at hm
              exact absurd hm (List.not_mem_nil f)
          · by_cases hc : info.years.contains b.year = true
            · rw [if_pos hc] at hm
              exact absurd hm (List.not_mem_nil f)
            · rw [if_neg hc] at hm
              rcases List.mem_singleton.mp hm with rfl
              exact Or.inr ⟨info.years, rfl⟩
        · rcases checkLoop_shape b entries l' hL with rfl | ⟨f, rfl, -⟩
          · exact Nat.zero_le 1
          · exact le_rfl
        · intro f hf
          rcases checkLoop_shape b entries l' hL with rfl | ⟨g, rfl, hg⟩
          · exact absurd hf (List.not_mem_nil f)
          · rcases List.mem_singleton.mp hf with rfl
            exact hg
  · exact fun b pre e hpre hf hbad => checkLoop_stops b pre hpre e hf hbad

/-- C7 witness: after a directory entry and an entry with a bad width, the
loop result is independent of a further entry. -/
theorem C7_fail_fast_witness :
    checkLoop ⟨[], [], [], 2020, 1000⟩
      ([⟨false, EXPECTED_DATE, true, some 1000, .notFound⟩] ++
        ⟨true, EXPECTED_DATE, true, some 500, .notFound⟩ ::
          [⟨true, ⟨1999, 5, 5, 0, 0, 0⟩, false, none, .found⟩]) =
    checkLoop ⟨[], [], [], 2020, 1000⟩
      ([⟨false, EXPECTED_DATE, true, some 1000, .notFound⟩] ++
        ⟨true, EXPECTED_DATE, true, some 500, .notFound⟩ :: []) :=
  C7_fail_fast.2 ⟨[], [], [], 2020, 1000⟩
    [⟨false, EXPECTED_DATE, true, some 1000, .notFound⟩]
    ⟨true, EXPECTED_DATE, true, some 500, .notFound⟩
    rfl rfl (Or.inr ⟨.width, rfl⟩)
    [⟨true, ⟨1999, 5, 5, 0, 0, 0⟩, false, none, .found⟩] []



/-! ## Claim C4: exact-then-prefix candidate selection -/

theorem getLinkLoop_cons_none {title : Str} {volume : Option Nat} {e : SEntry}
    {rest : List SEntry} {res : Option Str} {c : Cache} (h : e.href = none) :
    getLinkLoop title volume (e :: rest) res c = (.error "book URL not found", c) := by
  unfold getLinkLoop
  simp [h]

theorem getLinkLoop_cons_badnum {title : Str} {volume : Option Nat} {e : SEntry}
    {rest : List SEntry} {res : Option Str} {c : Cache} {link : Str} {m : String}
    (hh : e.href = some link) (hn : getBookNumber e = .error m) :
    getLinkLoop title volume (e :: rest) res c = (.error m, c) := by
  unfold getLinkLoop
  simp [hh, hn]

theorem getLinkLoop_cons_step {title : Str} {volume : Option Nat} {e : SEntry}
    {rest : List SEntry} {res : Option Str} {c : Cache} {link : Str} {number : Option Nat}
    (hh : e.href = some link) (hn : getBookNumber e = .ok number) :
    getLinkLoop title volume (e :: rest) res c =
      getLinkLoop title volume rest (if number = volume then some link else res)
        (cInsert c ⟨title, number⟩ link) := by
  conv_lhs => rw [getLinkLoop.eq_def]
  simp [hh, hn]

/-- Soundness of the candidate loop: a returned URL comes from a node
whose extracted volume equals the requested one (or from the incoming
accumulator). -/
theorem getLinkLoop_sound (title : Str) (volume : Option Nat) :
    ∀ (nodes : List SEntry) (res : Option Str) (c : Cache) (u : Str),
      (getLinkLoop title volume nodes res c).1 = .ok (some u) →
      (∃ e ∈ nodes, getBookNumber e = .ok volume ∧ e.href = some u) ∨ res = some u := by
  intro nodes
  induction nodes with
  | nil =>
    intro res c u h
    injection h with h'
    exact Or.inr h'
  | cons e rest ih =>
    intro res c u h
    rcases hh : e.href with _ | link
    · rw [getLinkLoop_cons_none hh] at h
      exact absurd h (by simp)
    · rcases hn : getBookNumber e with m | number
      · rw [getLinkLoop_cons_badnum hh hn] at h
        exact absurd h (by simp)
      · rw [getLinkLoop_cons_step hh hn] at h
        rcases ih _ _ u h with ⟨e', he', hn', hh'⟩ | hres
        · exact Or.inl ⟨e', List.mem_cons_of_mem e he', hn', hh'⟩
        · by_cases heq : number = volume
          · rw [if_pos heq] at hres
            injection hres with h''
            exact Or.inl ⟨e, List.mem_cons_self e rest, heq ▸ hn, h'' ▸ hh⟩
          · rw [if_neg heq] at hres
            exact Or.inr hres

/-- Completeness of the candidate loop: well-formed nodes containing a
volume match produce a URL. -/
theorem getLinkLoop_complete (title : Str) (volume : Option Nat) :
    ∀ (nodes : List SEntry) (res : Option Str) (c : Cache),
      (∀ e ∈ nodes, e.href.isSome ∧ ∃ n, getBookNumber e = .ok n) →
      ((∃ e ∈ nodes, getBookNumber e = .ok volume) ∨ res.isSome) →
      ∃ u, (getLinkLoop title volume nodes res c).1 = .ok (some u) := by
  intro nodes
  induction nodes with
  | nil =>
    intro res c _ hex
    rcases hex with ⟨e, he, -⟩ | hres
    · exact absurd he (List.not_mem_nil e)
    · rcases res with _ | u
      · simp at hres
      · exact ⟨u, rfl⟩
  | cons e rest ih =>
    intro res c hwf hex
    obtain ⟨hhs, n, hn⟩ := hwf e (List.mem_cons_self e rest)
    rcases hh : e.href with _ | link
    · rw [hh] at hhs
      simp at hhs
    · rw [getLinkLoop_cons_step hh hn]
      apply ih _ _ (fun e' he' => hwf e' (List.mem_cons_of_mem _ he'))
      rcases hex with ⟨e', he', hn'⟩ | hres
      · rcases List.mem_cons.mp he' with rfl | he''
        · right
          have hnv : n = volume := by
            rw [hn] at hn'
            injection hn'
          rw [if_pos hnv]
          rfl
        · exact Or.inl ⟨e', he'', hn'⟩
      · right
        by_cases hq : n = volume
        · rw [if_pos hq]; rfl
        · rw [if_neg hq]; exact hres

/-- `get_link` succeeds with `u` exactly when the candidate loop selects
`u`. -/
theorem getLink_ok_iff (net : Net) (title : Str) (volume : Option Nat) (csrf query : Str)
    (c : Cache) (u : Str) :
    (getLink net title volume csrf query c).1 = .ok u ↔
      (getLinkLoop title volume (tierNodes net title query) none c).1 = .ok (some u) := by
  unfold getLink
  rcases hL : getLinkLoop title volume (tierNodes net title query) none c with ⟨r, c2⟩
  cases r with
  | error m => simp
  | ok o =>
    rcases o with _ | u'
    · simp
    · simp

/-- C4: candidate selection first restricts to the exact title matches,
falling back to prefix matches only when no exact match exists, and within
the selected tier returns the URL of an entry whose extracted volume
number equals the requested volume; a volume match in the tier guarantees
success. -/
theorem C4_two_tier_selection (net : Net) (title : Str) (volume : Option Nat)
    (csrf query : Str) (c : Cache)
    (hwf : ∀ e ∈ tierNodes net title query, e.href.isSome ∧ ∃ n, getBookNumber e = .ok n) :
    ((net.search query).filter (fun e => isRightSeries e title true) ≠ [] →
        tierNodes net title query =
          (net.search query).filter (fun e => isRightSeries e title true))
    ∧ ((net.search query).filter (fun e => isRightSeries e title true) = [] →
        tierNodes net title query =
          (net.search query).filter (fun e => isRightSeries e title false))
    ∧ (∀ u, (getLink net title volume csrf query c).1 = .ok u →
        ∃ e ∈ tierNodes net title query, getBookNumber e = .ok volume ∧ e.href = some u)
    ∧ ((∃ e ∈ tierNodes net title query, getBookNumber e = .ok volume) →
        ∃ u, (getLink net title volume csrf query c).1 = .ok u) := by
  refine ⟨?_, ?_, ?_, ?_⟩
  · intro hne
    unfold tierNodes
    rw [if_neg (by simpa [List.isEmpty_iff] using hne)]
  · intro heq
    unfold tierNodes
    rw [if_pos (by simpa [List.isEmpty_iff] using heq)]
  · intro u hu
    rcases getLinkLoop_sound title volume (tierNodes net title query) none c u
        ((getLink_ok_iff net title volume csrf query c u).mp hu) with h | h
    · exact h
    · exact absurd h (by simp)
  · intro hex
    obtain ⟨u, hu⟩ := getLinkLoop_complete title volume (tierNodes net title query) none c
      hwf (Or.inl hex)
    exact ⟨u, (getLink_ok_iff net title volume csrf query c u).mpr hu⟩

/-- Concrete search page for the C4 witness: one exact match for the
requested title and one other series. -/
def netC4 : Net :=
  ⟨some ("tok".data),
   fun q => if q = "x".data then
      [⟨some ("x".data), some ("u1".data), some ("#1".data)⟩,
       ⟨some ("y".data), some ("u3".data), some ("#2".data)⟩]
    else [],
   fun _ => none⟩

/-- C4 witness: on the concrete page, the exact-match tier is selected and
the volume-1 entry is returned. -/
theorem C4_two_tier_selection_witness :
    ∃ e ∈ tierNodes netC4 ("x".data) ("x".data),
      getBookNumber e = .ok (some 1) ∧ e.href = some ("u1".data) :=
  (C4_two_tier_selection netC4 ("x".data) (some 1) ("tok".data) ("x".data) []
    (by
      intro e he
      have htn : tierNodes netC4 ("x".data) ("x".data) =
          [⟨some ("x".data), some ("u1".data), some ("#1".data)⟩] := rfl
      rw [htn] at he
      rcases List.mem_singleton.mp he with rfl
      exact ⟨rfl, some 1, rfl⟩)).2.2.1 ("u1".data) rfl



/-! ## Claim C1: cache write-through and read-through -/

theorem cLookup_cInsert_self (c : Cache) (k : VKey) (u : Str) :
    cLookup (cInsert c k u) k = some u := by
  unfold cInsert cLookup
  rw [if_pos rfl]

theorem cLookup_filter_ne (k k' : VKey) (h : k ≠ k') : ∀ (c : Cache),
    cLookup (c.filter (fun p => p.1 ≠ k')) k = cLookup c k := by
  intro c
  induction c with
  | nil => rfl
  | cons kv rest ih =>
    obtain ⟨k0, u0⟩ := kv
    by_cases h0 : k0 = k
    · subst h0
      rw [List.filter_cons_of_pos (by simpa using h)]
      unfold cLookup
      rw [if_pos rfl, if_pos rfl]
    · by_cases h1 : k0 = k'
      · rw [List.filter_cons_of_neg (by simpa using h1)]
        rw [ih]
        conv_rhs => rw [cLookup.eq_def]
        dsimp only
        rw [if_neg h0]
      · rw [List.filter_cons_of_pos (by simpa using h1)]
        unfold cLookup
        rw [if_neg h0, if_neg h0]
        exact ih

theorem cLookup_cInsert_ne (c : Cache) (k k' : VKey) (u : Str) (h : k ≠ k') :
    cLookup (cInsert c k' u) k = cLookup c k := by
  unfold cInsert
  conv_lhs => rw [cLookup.eq_def]
  dsimp only
  rw [if_neg (fun he : k' = k => h he.symm)]
  exact cLookup_filter_ne k k' h c

/-- The candidate loop does not touch cache keys whose volume differs from
every observed candidate's volume. -/
theorem getLinkLoop_cache_preserve (title : Str) (volume : Option Nat) :
    ∀ (nodes : List SEntry) (res : Option Str) (c : Cache) (k : VKey),
      (∀ e ∈ nodes, ∀ n, getBookNumber e = .ok n → k ≠ ⟨title, n⟩) →
      cLookup (getLinkLoop title volume nodes res c).2 k = cLookup c k := by
  intro nodes
  induction nodes with
  | nil =>
    intro res c k _
    rfl
  | cons e rest ih =>
    intro res c k hk
    rcases hh : e.href with _ | link
    · rw [getLinkLoop_cons_none hh]
    · rcases hn : getBookNumber e with m | number
      · rw [getLinkLoop_cons_badnum hh hn]
      · rw [getLinkLoop_cons_step hh hn]
        rw [ih _ _ _ (fun e' he' n hn' => hk e' (List.mem_cons_of_mem _ he') n hn')]
        exact cLookup_cInsert_ne c k ⟨title, number⟩ link
          (hk e (List.mem_cons_self e rest) number hn)

/-- Write-through: after the candidate loop, every observed candidate with
a distinct volume number is cached under `(title, number)` with its URL. -/
theorem getLinkLoop_cache_writes (title : Str) (volume : Option Nat) :
    ∀ (nodes : List SEntry) (res : Option Str) (c : Cache),
      (∀ e ∈ nodes, e.href.isSome ∧ ∃ n, getBookNumber e = .ok n) →
      List.Pairwise (fun e1 e2 => ∀ n1 n2, getBookNumber e1 = .ok n1 →
        getBookNumber e2 = .ok n2 → n1 ≠ n2) nodes →
      ∀ e ∈ nodes, ∀ n link, getBookNumber e = .ok n → e.href = some link →
        cLookup (getLinkLoop title volume nodes res c).2 ⟨title, n⟩ = some link := by
  intro nodes
  induction nodes with
  | nil =>
    intro res c _ _ e he
    exact absurd he (List.not_mem_nil e)
  | cons e0 rest ih =>
    intro res c hwf hpw e he n link hn hh
    have hpw' := List.pairwise_cons.mp hpw
    rcases List.mem_cons.mp he with rfl | he'
    · rw [getLinkLoop_cons_step hh hn]
      rw [getLinkLoop_cache_preserve title volume rest _ _ _ ?_]
      · exact cLookup_cInsert_self c ⟨title, n⟩ link
      · intro e' he' n' hn' heq
        injection heq with h1 h2
        exact hpw'.1 e' he' n n' hn hn' h2
    · obtain ⟨hhs0, n0, hn0⟩ := hwf e0 (List.mem_cons_self e0 rest)
      rcases hh0 : e0.href with _ | link0
      · rw [hh0] at hhs0
        simp at hhs0
      · rw [getLinkLoop_cons_step hh0 hn0]
        exact ih _ _ (fun e' he'' => hwf e' (List.mem_cons_of_mem _ he'')) hpw'.2
          e he' n link hn hh

/-- The cache returned by `get_link` is the one produced by the candidate
loop over the selected tier. -/
theorem getLink_cache_eq (net : Net) (title : Str) (volume : Option Nat)
    (csrf query : Str) (c : Cache) :
    (getLink net title volume csrf query c).2.1 =
      (getLinkLoop title volume (tierNodes net title query) none c).2 := by
  unfold getLink
  rcases hL : getLinkLoop title volume (tierNodes net title query) none c with ⟨r, c2⟩
  cases r with
  | error m => rfl
  | ok o => rcases o with _ | u <;> rfl

/-- Concrete search page for the C1 counterexample: two candidate links on
the results page, of which only one matches the queried title. -/
def netC1 : Net :=
  ⟨some ("tok".data),
   fun q => if q = "x".data then
      [⟨some ("x".data), some ("u1".data), some ("#1".data)⟩,
       ⟨some ("y".data), some ("u3".data), some ("#2".data)⟩]
    else [],
   fun _ => none⟩

/-- C1 counterexample: a successful cache-missing `find_book` that observes
`N = 2` candidate links on the results page leaves only one `SeriesQuery`
key in the cache (the non-matching link is never cached), refuting the
claim that `N` distinct keys are present. -/
theorem C1_counterexample :
    (netC1.search (strLower ("x".data))).length = 2
    ∧ (findBook netC1 [] ("x".data) (some 1)).1 = .ok ("u1".data)
    ∧ (findBook netC1 [] ("x".data) (some 1)).2.1 =
        [(⟨"x".data, some 1⟩, "u1".data)] := by
  refine ⟨rfl, rfl, rfl⟩

/-- C1 (amended): a cache hit returns immediately with no network events;
the search caches one `(title, number) -> url` entry per candidate link of
the selected tier, and when those numbers are pairwise distinct each
candidate is retrievable by its own key; a cache-missing successful first
search performs exactly the homepage fetch and the search fetch, each
preceded by the delay. -/
theorem C1_cache_write_read :
    (∀ (net : Net) (c : Cache) (t : Str) (v : Option Nat) (u : Str),
        cLookup c ⟨t, v⟩ = some u → findBook net c t v = (.ok u, c, []))
    ∧ (∀ (net : Net) (t : Str) (v : Option Nat) (csrf query : Str) (c : Cache),
        (∀ e ∈ tierNodes net t query, e.href.isSome ∧ ∃ n, getBookNumber e = .ok n) →
        List.Pairwise (fun e1 e2 => ∀ n1 n2, getBookNumber e1 = .ok n1 →
          getBookNumber e2 = .ok n2 → n1 ≠ n2) (tierNodes net t query) →
        ∀ e ∈ tierNodes net t query, ∀ n link, getBookNumber e = .ok n →
          e.href = some link →
          cLookup (getLink net t v csrf query c).2.1 ⟨t, n⟩ = some link)
    ∧ (∀ (net : Net) (c : Cache) (t : Str) (v : Option Nat) (csrf : Str) (u : Str),
        cLookup c ⟨t, v⟩ = none → net.home = some csrf →
        (getLink net t v csrf (strLower t) c).1 = .ok u →
        findBook net c t v = (.ok u, (getLink net t v csrf (strLower t) c).2.1,
          [Ev.sleep 2, Ev.fetch Req.home, Ev.sleep 2,
            Ev.fetch (Req.search csrf (strLower t))])) := by
  refine ⟨?_, ?_, ?_⟩
  · intro net c t v u h
    unfold findBook
    dsimp only
    rw [h]
  · intro net t v csrf query c hwf hpw e he n link hn hh
    rw [getLink_cache_eq]
    exact getLinkLoop_cache_writes t v (tierNodes net t query) none c hwf hpw e he n link hn hh
  · intro net c t v csrf u hmiss hhome hok
    unfold findBook
    dsimp only
    rw [hmiss, hhome]
    dsimp only
    have htr := getLink_trace net t v csrf (strLower t) c
    rcases hG : getLink net t v csrf (strLower t) c with ⟨r1, c1, t1⟩
    rw [hG] at hok htr
    dsimp only at hok htr
    cases r1 with
    | error m => exact absurd hok (by simp)
    | ok u' =>
      injection hok with hu
      subst hu
      dsimp only
      rw [htr]
      rfl

/-- Concrete search page for the C1 witness: two candidate links, both
matching the queried title, with distinct volume numbers. -/
def netC1W : Net :=
  ⟨some ("tok".data),
   fun q => if q = "x".data then
      [⟨some ("x".data), some ("u1".data), some ("#1".data)⟩,
       ⟨some ("x".data), some ("u2".data), some ("#2".data)⟩]
    else [],
   fun _ => none⟩

/-- C1 witness: after one search for volume 1, the sibling volume 2 is
cached under its own key, and resolving it again is a pure cache hit with
an empty event trace. -/
theorem C1_cache_write_read_witness :
    cLookup (getLink netC1W ("x".data) (some 1) ("tok".data) ("x".data) []).2.1
        ⟨"x".data, some 2⟩ = some ("u2".data)
    ∧ findBook netC1W [(⟨"x".data, some 2⟩, "u2".data)] ("x".data) (some 2) =
        (.ok ("u2".data), [(⟨"x".data, some 2⟩, "u2".data)], []) := by
  constructor
  · refine C1_cache_write_read.2.1 netC1W ("x".data) (some 1) ("tok".data) ("x".data) []
      ?_ ?_ ⟨some ("x".data), some ("u2".data), some ("#2".data)⟩ ?_ (some 2) ("u2".data) rfl rfl
    · intro e he
      have htn : tierNodes netC1W ("x".data) ("x".data) =
          [⟨some ("x".data), some ("u1".data), some ("#1".data)⟩,
           ⟨some ("x".data), some ("u2".data), some ("#2".data)⟩] := rfl
      rw [htn] at he
      rcases List.mem_cons.mp he with rfl | he'
      · exact ⟨rfl, some 1, rfl⟩
      · rcases List.mem_singleton.mp he' with rfl
        exact ⟨rfl, some 2, rfl⟩
    · have htn : tierNodes netC1W ("x".data) ("x".data) =
          [⟨some ("x".data), some ("u1".data), some ("#1".data)⟩,
           ⟨some ("x".data), some ("u2".data), some ("#2".data)⟩] := rfl
      rw [htn]
      refine List.Pairwise.cons ?_ (List.pairwise_singleton _ _)
      intro e' he' n1 n2 h1 h2
      rcases List.mem_singleton.mp he' with rfl
      have h1' : Except.ok (ε := String) (some 1) = Except.ok n1 := h1
      have h2' : Except.ok (ε := String) (some 2) = Except.ok n2 := h2
      injection h1' with hh1
      injection h2' with hh2
      rw [← hh1, ← hh2]
      decide
    · have htn : tierNodes netC1W ("x".data) ("x".data) =
          [⟨some ("x".data), some ("u1".data), some ("#1".data)⟩,
           ⟨some ("x".data), some ("u2".data), some ("#2".data)⟩] := rfl
      rw [htn]
      exact List.mem_cons_of_mem _ (List.mem_singleton.mpr rfl)
  · exact C1_cache_write_read.1 netC1W [(⟨"x".data, some 2⟩, "u2".data)]
      ("x".data) (some 2) ("u2".data) rfl



/-! ## Claim C3: numeric-parse failures and per-file isolation -/

/-- One step of `get_books`, per constructor outcome. -/
theorem getBooks_cons_ok {net : Net} {p : Str} {rest : List Str} {c : Cache}
    {b : Book} {c' : Cache} {t : List Ev} (hb : bookNew net c p = (.ok b, c', t)) :
    getBooks net c (p :: rest) =
      match getBooks net c' rest with
      | (.ok bs, warns, c2) => (.ok (b :: bs), warns, c2)
      | (rr, warns, c2) => (rr, warns, c2) := by
  conv_lhs => rw [getBooks.eq_def]
  dsimp only
  rw [hb]

theorem getBooks_cons_err {net : Net} {p : Str} {rest : List Str} {c : Cache}
    {m : String} {c' : Cache} {t : List Ev} (hb : bookNew net c p = (.err m, c', t)) :
    getBooks net c (p :: rest) =
      match getBooks net c' rest with
      | (rr, warns, c2) => (rr, p :: warns, c2) := by
  conv_lhs => rw [getBooks.eq_def]
  dsimp only
  rw [hb]

theorem getBooks_cons_panik {net : Net} {p : Str} {rest : List Str} {c : Cache}
    {m : String} {c' : Cache} {t : List Ev} (hb : bookNew net c p = (.panik m, c', t)) :
    getBooks net c (p :: rest) = (.panik m, [], c') := by
  conv_lhs => rw [getBooks.eq_def]
  dsimp only
  rw [hb]

/-- Concrete catalog for the C3 theorems: the series `good` resolves, and
nothing else does. -/
def netC3 : Net :=
  ⟨some ("tok".data),
   fun q => if q = "good".data then
      [⟨some ("Good".data), some ("u".data), some ("#1".data)⟩]
    else [],
   fun _ => none⟩

/-- C3 counterexample: a volume (`256`) that matches the filename grammar
but overflows `u8` makes `Book::new` panic, and the panic aborts the whole
`get_books` run before the following (well-formed, resolvable) file is
processed; the same well-formed file alone is processed fine. -/
theorem C3_counterexample :
    (getBooks netC3 [] ["Foo T256 (A) (2020) [D-10].cbz".data,
        "Good T1 (A) (2020) [D-10].cbz".data]).1 = .panik "valid volume"
    ∧ (getBooks netC3 [] ["Good T1 (A) (2020) [D-10].cbz".data]).1 =
        .ok [⟨"Good T1 (A) (2020) [D-10].cbz".data, "u".data, "A".data, 2020, 10⟩]
    ∧ parseFilename ("Foo T256 (A) (2020) [D-10].cbz".data) =
        some ⟨"Foo".data, some ("256".data), "A".data, "2020".data, "10".data⟩ := by
  refine ⟨rfl, rfl, rfl⟩

/-- C3 (amended): as long as no file's numeric fields make the constructor
panic, the batch iteration catches every per-file `Err` individually (one
warning per skipped file) and no single bad file aborts the run: the
result is `ok` and every path is accounted for either as a book or as a
warning. -/
theorem C3_per_file_isolation :
    ∀ (net : Net) (c : Cache) (paths : List Str),
      (∀ (c' : Cache), ∀ p ∈ paths, ¬∃ m, (bookNew net c' p).1 = .panik m) →
      ∃ bs warns c2, getBooks net c paths = (.ok bs, warns, c2)
        ∧ bs.length + warns.length = paths.length := by
  intro net c paths
  induction paths generalizing c with
  | nil =>
    intro _
    exact ⟨[], [], c, rfl, rfl⟩
  | cons p rest ih =>
    intro h
    rcases hb : bookNew net c p with ⟨r, c', t⟩
    obtain ⟨bs, warns, c2, hg, hlen⟩ :=
      ih c' (fun c'' p' hp' => h c'' p' (List.mem_cons_of_mem _ hp'))
    cases r with
    | panik m =>
      exact absurd ⟨m, by rw [hb]⟩ (h c p (List.mem_cons_self p rest))
    | ok b =>
      refine ⟨b :: bs, warns, c2, ?_, by simp only [List.length_cons]; omega⟩
      rw [getBooks_cons_ok hb, hg]
    | err m =>
      refine ⟨bs, p :: warns, c2, ?_, by simp only [List.length_cons]; omega⟩
      rw [getBooks_cons_err hb, hg]

/-- `Book::new` can only panic through an out-of-range numeric capture;
in-range captures never panic, whatever the cache and network state. -/
theorem bookNew_no_panik (net : Net) (c : Cache) (p : Str)
    (h : ∀ f, parseFilename p = some f →
      (∀ vs, f.volume = some vs → natOfDigits vs ≤ 255)
      ∧ natOfDigits f.year ≤ 65535 ∧ natOfDigits f.width < 2 ^ 64) :
    ¬∃ m, (bookNew net c p).1 = .panik m := by
  rintro ⟨m, hm⟩
  unfold bookNew at hm
  by_cases hext : extension p ≠ some ("cbz".data)
  · rw [if_pos hext] at hm
    exact absurd hm (by simp)
  · rw [if_neg hext] at hm
    rcases hf : parseFilename p with _ | f
    · rw [hf] at hm
      exact absurd hm (by simp)
    · rw [hf] at hm
      dsimp only at hm
      obtain ⟨hv, hy, hw⟩ := h f hf
      unfold newFromCaptures at hm
      rcases hvol : f.volume with _ | vs
      · rw [hvol] at hm
        dsimp only at hm
        rw [if_neg (by omega), if_neg (by omega)] at hm
        rcases hfb : findBook net c f.title none with ⟨rb, cb, tb⟩
        rw [hfb] at hm
        cases rb <;> simp at hm
      · rw [hvol] at hm
        have hvb := hv vs hvol
        dsimp only at hm
        rw [if_pos hvb] at hm
        dsimp only at hm
        rw [if_neg (by omega), if_neg (by omega)] at hm
        rcases hfb : findBook net c f.title (some (natOfDigits vs)) with ⟨rb, cb, tb⟩
        rw [hfb] at hm
        cases rb <;> simp at hm

/-- C3 witness: a batch of one resolvable file and one unrecognized file
completes with one book and one individually-reported skip. -/
theorem C3_per_file_isolation_witness :
    ∃ bs warns c2,
      getBooks netC3 [] ["Good T1 (A) (2020) [D-10].cbz".data, "noise.cbz".data] =
        (.ok bs, warns, c2)
      ∧ bs.length + warns.length =
          (["Good T1 (A) (2020) [D-10].cbz".data, "noise.cbz".data] : List Str).length :=
  C3_per_file_isolation netC3 []
    ["Good T1 (A) (2020) [D-10].cbz".data, "noise.cbz".data]
    (by
      intro c' p hp
      rcases List.mem_cons.mp hp with rfl | hp'
      · refine bookNew_no_panik netC3 c' _ ?_
        intro f hf
        rw [show parseFilename ("Good T1 (A) (2020) [D-10].cbz".data) =
          some ⟨"Good".data, some ("1".data), "A".data, "2020".data, "10".data⟩
          from rfl] at hf
        injection hf with hf'
        subst hf'
        refine ⟨?_, by decide, by decide⟩
        intro vs hvs
        injection hvs with h'
        rw [← h']
        decide
      · rcases List.mem_singleton.mp hp' with rfl
        refine bookNew_no_panik netC3 c' _ ?_
        intro f hf
        rw [show parseFilename ("noise.cbz".data) = none from rfl] at hf
        cases hf)


/-! ## Claim C6: filename round-trip through a name builder -/

/-- The trailing `) (<year>) [<tag>-<width>].cbz` part of a built name. -/
def afterAuthors (y tag w : Str) : Str :=
  ')' :: ' ' :: '(' :: (y ++ ')' :: ' ' :: '[' :: (tag ++ '-' :: (w ++ ']' :: ".cbz".data)))

/-- ` T<volume> (<authors>)...` tail of a built series name. -/
def seriesTail (v a y tag w : Str) : Str :=
  ' ' :: 'T' :: (v ++ ' ' :: '(' :: (a ++ afterAuthors y tag w))

/-- Name builder for the series grammar:
`<title> T<volume> (<authors>) (<year>) [<tag>-<width>].cbz`. -/
def buildSeriesName (t v a y tag w : Str) : Str := t ++ seriesTail v a y tag w

/-- Name builder for the one-shot grammar:
`<title> (<authors>) (<year>) [<tag>-<width>].cbz`. -/
def buildOneshotName (t a y tag w : Str) : Str :=
  t ++ ' ' :: '(' :: (a ++ afterAuthors y tag w)

/-- `true` iff the string starts with `") ("`, the only place where the
pattern after the authors group can resume matching. -/
def startsParen (s : Str) : Bool :=
  s.head? = some ')' && s.tail.head? = some ' ' && s.tail.tail.head? = some '('

/-- `true` iff the string starts with `" ("`. -/
def startsPO (s : Str) : Bool :=
  s.head? = some ' ' && s.tail.head? = some '('

/-- `true` iff the string starts with a volume marker ` T<digits> (`, the
only shape at which `SERIES_REGEX`'s tail can match. -/
def startsMarker (s : Str) : Bool :=
  s.head? = some ' ' && s.tail.head? = some 'T' &&
    (let d := s.tail.tail.takeWhile isDigit
     !d.isEmpty && startsPO (s.tail.tail.drop d.length))

/-- `true` iff `") ("` occurs anywhere in the string. -/
def hasParen : Str → Bool
  | [] => false
  | c :: rest => startsParen (c :: rest) || hasParen rest

/-- `true` iff a volume marker ` T<digits> (` occurs anywhere in the
string. -/
def hasMarker : Str → Bool
  | [] => false
  | c :: rest => startsMarker (c :: rest) || hasMarker rest

theorem matchAfterAuthors_none {s : Str} (h : startsParen s = false) :
    matchAfterAuthors s = none := by
  unfold matchAfterAuthors
  split
  · simp [startsParen] at h
  · rfl

theorem matchTailSeries_none {s : Str} (h : startsMarker s = false) :
    matchTailSeries s = none := by
  unfold matchTailSeries
  split
  · rename_i r
    rw [startsMarker] at h
    simp only [List.head?_cons, List.tail_cons] at h
    dsimp only
    by_cases hv : r.takeWhile isDigit = []
    · rw [if_pos hv]
    · rw [if_neg hv]
      have hPO : startsPO (List.drop (List.takeWhile isDigit r).length r) = false := by
        by_contra hPO'
        rw [Bool.not_eq_false] at hPO'
        rw [hPO'] at h
        simp [hv] at h
      split
      · rename_i r2 heq
        rw [heq] at hPO
        simp [startsPO] at hPO
      · rfl
  · rfl

theorem lastValid_none (p : Nat → Bool) : ∀ n, (∀ i, p i = false) → lastValid p n = none := by
  intro n h
  induction n with
  | zero => rfl
  | succ n ih =>
    unfold lastValid
    rw [h n]
    simpa using ih

theorem lastValid_mem (p : Nat → Bool) : ∀ n i, lastValid p n = some i → p i = true := by
  intro n
  induction n with
  | zero => intro i h; exact absurd h (by simp [lastValid])
  | succ n ih =>
    intro i h
    unfold lastValid at h
    by_cases hn : p n = true
    · rw [if_pos hn] at h
      injection h with h'
      exact h' ▸ hn
    · rw [if_neg hn] at h
      exact ih i h

theorem lastValid_isSome (p : Nat → Bool) : ∀ n i, i < n → p i = true →
    (lastValid p n).isSome = true := by
  intro n
  induction n with
  | zero => intro i hi; omega
  | succ n ih =>
    intro i hi hp
    unfold lastValid
    by_cases hn : p n = true
    · rw [if_pos hn]; rfl
    · rw [if_neg hn]
      have hin : i ≠ n := fun he => hn (he ▸ hp)
      exact ih i (by omega) hp

theorem lastValid_eq (p : Nat → Bool) : ∀ n i, i < n → p i = true →
    (∀ j, i < j → j < n → p j = false) → lastValid p n = some i := by
  intro n
  induction n with
  | zero => intro i hi; omega
  | succ n ih =>
    intro i hi hp hmax
    unfold lastValid
    by_cases hn : i = n
    · subst hn
      rw [if_pos hp]
    · rw [if_neg (by simp [hmax n (by omega) (by omega)])]
      exact ih i (by omega) hp (fun j h1 h2 => hmax j h1 (by omega))

theorem takeWhile_append_nil (p : Char → Bool) :
    ∀ (xs ys : Str), ys.takeWhile p = [] → (xs ++ ys).takeWhile p = xs.takeWhile p := by
  intro xs
  induction xs with
  | nil => intro ys h; simpa using h
  | cons c rest ih =>
    intro ys h
    by_cases hc : p c = true
    · simp [List.takeWhile_cons, hc, ih ys h]
    · simp [List.takeWhile_cons, hc]

theorem takeWhile_all_run (p : Char → Bool) :
    ∀ (xs : Str), xs.all p = true → xs.takeWhile p = xs := by
  intro xs
  induction xs with
  | nil => intro _; rfl
  | cons c rest ih =>
    intro h
    simp only [List.all_cons, Bool.and_eq_true] at h
    simp [List.takeWhile_cons, h.1, ih h.2]



theorem startsPO_append_paren (xs R0 : Str) :
    startsPO (xs ++ ')' :: R0) = startsPO xs := by
  match xs with
  | [] => simp [startsPO]
  | [c] => simp [startsPO]
  | c1 :: c2 :: rest => simp [startsPO]

theorem length_takeWhile_le (p : Char → Bool) : ∀ (l : Str), (l.takeWhile p).length ≤ l.length := by
  intro l
  induction l with
  | nil => exact le_rfl
  | cons c rest ih =>
    rw [List.takeWhile_cons]
    by_cases hc : p c = true
    · rw [if_pos hc]
      simpa using ih
    · rw [if_neg hc]
      simp

theorem drop_takeWhile_append_paren (r' R0 : Str) :
    List.drop (List.takeWhile isDigit r').length (r' ++ ')' :: R0) =
      List.drop (List.takeWhile isDigit r').length r' ++ ')' :: R0 := by
  rw [List.drop_append_eq_append_drop]
  rw [Nat.sub_eq_zero_of_le (length_takeWhile_le _ _)]
  rw [List.drop_zero]

/-- A volume marker that starts inside `a'` cannot extend into a following
`") ..."` region: it must lie entirely inside `a'`. -/
theorem startsMarker_append_paren (a' R0 : Str) :
    startsMarker (a' ++ ')' :: R0) = true → startsMarker a' = true := by
  match a' with
  | [] => intro h; simp [startsMarker] at h
  | [c] => intro h; simp [startsMarker] at h
  | c1 :: c2 :: r' =>
    intro h
    rw [startsMarker] at h ⊢
    simp only [List.cons_append, List.head?_cons, List.tail_cons] at h ⊢
    rw [takeWhile_append_nil isDigit r' (')' :: R0) rfl] at h
    rw [drop_takeWhile_append_paren r' R0] at h
    rw [startsPO_append_paren] at h
    exact h

theorem hasMarker_drop : ∀ (s : Str), hasMarker s = false →
    ∀ k, startsMarker (List.drop k s) = false := by
  intro s
  induction s with
  | nil =>
    intro _ k
    rw [List.drop_nil]
    simp [startsMarker]
  | cons c rest ih =>
    intro h k
    rw [hasMarker] at h
    simp only [Bool.or_eq_false_iff] at h
    match k with
    | 0 => exact h.1
    | k + 1 => exact ih h.2 k

theorem hasParen_drop : ∀ (s : Str), hasParen s = false →
    ∀ k, startsParen (List.drop k s) = false := by
  intro s
  induction s with
  | nil =>
    intro _ k
    rw [List.drop_nil]
    simp [startsParen]
  | cons c rest ih =>
    intro h k
    rw [hasParen] at h
    simp only [Bool.or_eq_false_iff] at h
    match k with
    | 0 => exact h.1
    | k + 1 => exact ih h.2 k

theorem hasMarker_cons_false {c : Char} {r : Str} (h1 : startsMarker (c :: r) = false)
    (h2 : hasMarker r = false) : hasMarker (c :: r) = false := by
  rw [hasMarker]
  simp [h1, h2]

theorem hasParen_cons_false {c : Char} {r : Str} (h1 : startsParen (c :: r) = false)
    (h2 : hasParen r = false) : hasParen (c :: r) = false := by
  rw [hasParen]
  simp [h1, h2]

theorem hasMarker_seg : ∀ (seg rest : Str), (∀ c ∈ seg, c ≠ ' ') →
    hasMarker rest = false → hasMarker (seg ++ rest) = false := by
  intro seg
  induction seg with
  | nil => intro rest _ hr; exact hr
  | cons c s' ih =>
    intro rest h hr
    rw [List.cons_append]
    refine hasMarker_cons_false ?_ (ih rest (fun x hx => h x (List.mem_cons_of_mem c hx)) hr)
    simp [startsMarker, h c (List.mem_cons_self c s')]

theorem hasParen_seg : ∀ (seg rest : Str), (∀ c ∈ seg, c ≠ ')') →
    hasParen rest = false → hasParen (seg ++ rest) = false := by
  intro seg
  induction seg with
  | nil => intro rest _ hr; exact hr
  | cons c s' ih =>
    intro rest h hr
    rw [List.cons_append]
    refine hasParen_cons_false ?_ (ih rest (fun x hx => h x (List.mem_cons_of_mem c hx)) hr)
    simp [startsParen, h c (List.mem_cons_self c s')]

/-- Markers starting inside `a` would be markers of `a`: none exist. -/
theorem hasMarker_append_paren : ∀ (a R0 : Str), hasMarker a = false →
    hasMarker (')' :: R0) = false → hasMarker (a ++ ')' :: R0) = false := by
  intro a
  induction a with
  | nil => intro R0 _ hR; exact hR
  | cons c a' ih =>
    intro R0 ha hR
    rw [hasMarker] at ha
    simp only [Bool.or_eq_false_iff] at ha
    rw [List.cons_append]
    refine hasMarker_cons_false ?_ (ih R0 ha.2 hR)
    cases hsm : startsMarker (c :: (a' ++ ')' :: R0)) with
    | false => rfl
    | true =>
      have hres := startsMarker_append_paren (c :: a') R0 (by rw [List.cons_append]; exact hsm)
      simp [ha.1] at hres

theorem digit_ne_space {c : Char} (h : isDigit c = true) : c ≠ ' ' := by
  intro he
  rw [he] at h
  exact absurd h (by decide)

theorem digit_ne_paren {c : Char} (h : isDigit c = true) : c ≠ ')' := by
  intro he
  rw [he] at h
  exact absurd h (by decide)

theorem word_ne_space {c : Char} (h : isWordChar c = true) : c ≠ ' ' := by
  intro he
  rw [he] at h
  exact absurd h (by decide)

theorem word_ne_paren {c : Char} (h : isWordChar c = true) : c ≠ ')' := by
  intro he
  rw [he] at h
  exact absurd h (by decide)

/-- No volume marker occurs anywhere in the fixed tail after the authors
group. -/
theorem hasMarker_afterAuthors (y tag w : Str) (hy : y.all isDigit = true)
    (htag : tag.all isWordChar = true) (hw : w.all isDigit = true) :
    hasMarker (afterAuthors y tag w) = false := by
  rw [afterAuthors]
  refine hasMarker_cons_false (by simp [startsMarker]) ?_
  refine hasMarker_cons_false (by simp [startsMarker]) ?_
  refine hasMarker_cons_false (by simp [startsMarker]) ?_
  refine hasMarker_seg y _ (fun c hc => digit_ne_space (List.all_eq_true.mp hy c hc)) ?_
  refine hasMarker_cons_false (by simp [startsMarker]) ?_
  refine hasMarker_cons_false (by simp [startsMarker]) ?_
  refine hasMarker_cons_false (by simp [startsMarker]) ?_
  refine hasMarker_seg tag _ (fun c hc => word_ne_space (List.all_eq_true.mp htag c hc)) ?_
  refine hasMarker_cons_false (by simp [startsMarker]) ?_
  refine hasMarker_seg w _ (fun c hc => digit_ne_space (List.all_eq_true.mp hw c hc)) ?_
  refine hasMarker_cons_false (by simp [startsMarker]) ?_
  decide

/-- No `") ("` occurrence inside the tail of the after-authors region. -/
theorem hasParen_afterAuthors_tail (y tag w : Str) (hy : y.all isDigit = true)
    (htag : tag.all isWordChar = true) (hw : w.all isDigit = true) :
    hasParen (' ' :: '(' ::
      (y ++ ')' :: ' ' :: '[' :: (tag ++ '-' :: (w ++ ']' :: ".cbz".data)))) = false := by
  refine hasParen_cons_false (by simp [startsParen]) ?_
  refine hasParen_cons_false (by simp [startsParen]) ?_
  refine hasParen_seg y _ (fun c hc => digit_ne_paren (List.all_eq_true.mp hy c hc)) ?_
  refine hasParen_cons_false (by simp [startsParen]) ?_
  refine hasParen_cons_false (by simp [startsParen]) ?_
  refine hasParen_cons_false (by simp [startsParen]) ?_
  refine hasParen_seg tag _ (fun c hc => word_ne_paren (List.all_eq_true.mp htag c hc)) ?_
  refine hasParen_cons_false (by simp [startsParen]) ?_
  refine hasParen_seg w _ (fun c hc => digit_ne_paren (List.all_eq_true.mp hw c hc)) ?_
  refine hasParen_cons_false (by simp [startsParen]) ?_
  decide



theorem matchAfterAuthors_build (y tag w : Str) (hy4 : y.length = 4) (hy : y.all isDigit = true)
    (htag : tag ≠ []) (htagw : tag.all isWordChar = true)
    (hw : w ≠ []) (hwd : w.all isDigit = true) :
    matchAfterAuthors (afterAuthors y tag w) = some (y, w) := by
  rw [afterAuthors]
  have htake : (y ++ ')' :: ' ' :: '[' :: (tag ++ '-' :: (w ++ ']' :: ".cbz".data))).take 4 = y := by
    rw [← hy4]
    exact List.take_left y _
  have hdrop : (y ++ ')' :: ' ' :: '[' :: (tag ++ '-' :: (w ++ ']' :: ".cbz".data))).drop 4 =
      ')' :: ' ' :: '[' :: (tag ++ '-' :: (w ++ ']' :: ".cbz".data)) := by
    rw [← hy4]
    exact List.drop_left y _
  have htag2 : List.takeWhile isWordChar (tag ++ '-' :: (w ++ ']' :: ".cbz".data)) = tag := by
    rw [takeWhile_append_nil isWordChar tag ('-' :: (w ++ ']' :: ".cbz".data)) rfl]
    exact takeWhile_all_run _ _ htagw
  have hdroptag : (tag ++ '-' :: (w ++ ']' :: ".cbz".data)).drop tag.length =
      '-' :: (w ++ ']' :: ".cbz".data) := List.drop_left tag _
  have hwrun : List.takeWhile isDigit (w ++ ']' :: ".cbz".data) = w := by
    rw [takeWhile_append_nil isDigit w (']' :: ".cbz".data) rfl]
    exact takeWhile_all_run _ _ hwd
  have hdropw : (w ++ ']' :: ".cbz".data).drop w.length = ']' :: ".cbz".data :=
    List.drop_left w _
  simp only [matchAfterAuthors, htake, hdrop, htag2, hdroptag, hwrun, hdropw]
  rw [if_pos ⟨hy4, hy⟩, if_neg htag, if_neg hw]

theorem lastAuthorsSplit_build (a y tag w : Str) (haN : a ≠ []) (haNL : noNL a = true)
    (hy4 : y.length = 4) (hy : y.all isDigit = true)
    (htag : tag ≠ []) (htagw : tag.all isWordChar = true)
    (hw : w ≠ []) (hwd : w.all isDigit = true) :
    lastAuthorsSplit (a ++ afterAuthors y tag w) = some (a, y, w) := by
  have h1 : 1 ≤ a.length := by
    cases a with
    | nil => exact absurd rfl haN
    | cons c r => simp
  have hvalid : validAuthorsSplit (a ++ afterAuthors y tag w) a.length = true := by
    unfold validAuthorsSplit
    rw [List.take_left a _, List.drop_left a _,
      matchAfterAuthors_build y tag w hy4 hy htag htagw hw hwd]
    simp [h1, haNL]
  have hinvalid : ∀ j, a.length < j →
      validAuthorsSplit (a ++ afterAuthors y tag w) j = false := by
    intro j hj
    unfold validAuthorsSplit
    have hdropj : (a ++ afterAuthors y tag w).drop j =
        (afterAuthors y tag w).drop (j - a.length) := by
      rw [List.drop_append_eq_append_drop, List.drop_eq_nil_of_le (by omega), List.nil_append]
    rw [hdropj]
    obtain ⟨m, hm⟩ : ∃ m, j - a.length = m + 1 := ⟨j - a.length - 1, by omega⟩
    rw [hm, afterAuthors, List.drop_succ_cons]
    rw [matchAfterAuthors_none
      (hasParen_drop _ (hasParen_afterAuthors_tail y tag w hy htagw hwd) m)]
    simp
  unfold lastAuthorsSplit
  rw [lastValid_eq _ _ a.length (by rw [List.length_append]; omega) hvalid
    (fun j hja hjb => hinvalid j hja)]
  dsimp only
  rw [List.drop_left a _, matchAfterAuthors_build y tag w hy4 hy htag htagw hw hwd]
  dsimp only
  rw [List.take_left a _]

theorem matchTailSeries_build (v a y tag w : Str)
    (hv : v ≠ []) (hvd : v.all isDigit = true)
    (haN : a ≠ []) (haNL : noNL a = true)
    (hy4 : y.length = 4) (hy : y.all isDigit = true)
    (htag : tag ≠ []) (htagw : tag.all isWordChar = true)
    (hw : w ≠ []) (hwd : w.all isDigit = true) :
    matchTailSeries (seriesTail v a y tag w) = some (v, a, y, w) := by
  rw [seriesTail]
  have hrun : List.takeWhile isDigit (v ++ ' ' :: '(' :: (a ++ afterAuthors y tag w)) = v := by
    rw [takeWhile_append_nil isDigit v (' ' :: '(' :: (a ++ afterAuthors y tag w)) rfl]
    exact takeWhile_all_run _ _ hvd
  have hdrop : (v ++ ' ' :: '(' :: (a ++ afterAuthors y tag w)).drop v.length =
      ' ' :: '(' :: (a ++ afterAuthors y tag w) := List.drop_left v _
  simp only [matchTailSeries, hrun, hdrop]
  rw [if_neg hv]
  rw [lastAuthorsSplit_build a y tag w haN haNL hy4 hy htag htagw hw hwd]

/-- No volume marker occurs at any position after the title split of a
built series name. -/
theorem hasMarker_seriesTail_tail (v a y tag w : Str)
    (hvd : v.all isDigit = true) (hmark : hasMarker a = false)
    (hy : y.all isDigit = true) (htagw : tag.all isWordChar = true)
    (hwd : w.all isDigit = true) :
    hasMarker ('T' :: (v ++ ' ' :: '(' :: (a ++ afterAuthors y tag w))) = false := by
  refine hasMarker_cons_false (by simp [startsMarker]) ?_
  refine hasMarker_seg v _ (fun c hc => digit_ne_space (List.all_eq_true.mp hvd c hc)) ?_
  refine hasMarker_cons_false (by simp [startsMarker]) ?_
  refine hasMarker_cons_false (by simp [startsMarker]) ?_
  rw [show afterAuthors y tag w = ')' :: ' ' :: '(' ::
    (y ++ ')' :: ' ' :: '[' :: (tag ++ '-' :: (w ++ ']' :: ".cbz".data))) from rfl]
  exact hasMarker_append_paren a _ hmark
    (by
      rw [show (')' : Char) :: ' ' :: '(' ::
        (y ++ ')' :: ' ' :: '[' :: (tag ++ '-' :: (w ++ ']' :: ".cbz".data))) =
        afterAuthors y tag w from rfl]
      exact hasMarker_afterAuthors y tag w hy htagw hwd)

theorem parseSeries_build (t v a y tag w : Str)
    (htN : t ≠ []) (htNL : noNL t = true)
    (hv : v ≠ []) (hvd : v.all isDigit = true)
    (haN : a ≠ []) (haNL : noNL a = true) (hmark : hasMarker a = false)
    (hy4 : y.length = 4) (hy : y.all isDigit = true)
    (htag : tag ≠ []) (htagw : tag.all isWordChar = true)
    (hw : w ≠ []) (hwd : w.all isDigit = true) :
    parseSeries (buildSeriesName t v a y tag w) = some ⟨t, some v, a, y, w⟩ := by
  have ht1 : 1 ≤ t.length := by
    cases t with
    | nil => exact absurd rfl htN
    | cons c r => simp
  have hvalid : validSeriesSplit (buildSeriesName t v a y tag w) t.length = true := by
    unfold validSeriesSplit buildSeriesName
    rw [List.take_left t _, List.drop_left t _,
      matchTailSeries_build v a y tag w hv hvd haN haNL hy4 hy htag htagw hw hwd]
    simp [ht1, htNL]
  have hinvalid : ∀ i, t.length < i →
      validSeriesSplit (buildSeriesName t v a y tag w) i = false := by
    intro i hi
    unfold validSeriesSplit buildSeriesName
    have hdropi : (t ++ seriesTail v a y tag w).drop i =
        (seriesTail v a y tag w).drop (i - t.length) := by
      rw [List.drop_append_eq_append_drop, List.drop_eq_nil_of_le (by omega), List.nil_append]
    rw [hdropi]
    obtain ⟨m, hm⟩ : ∃ m, i - t.length = m + 1 := ⟨i - t.length - 1, by omega⟩
    rw [hm, seriesTail, List.drop_succ_cons]
    rw [matchTailSeries_none
      (hasMarker_drop _ (hasMarker_seriesTail_tail v a y tag w hvd hmark hy htagw hwd) m)]
    simp
  unfold parseSeries
  rw [lastValid_eq _ _ t.length (by rw [buildSeriesName, List.length_append]; omega) hvalid
    (fun j hja hjb => hinvalid j hja)]
  dsimp only
  rw [buildSeriesName, List.drop_left t _,
    matchTailSeries_build v a y tag w hv hvd haN haNL hy4 hy htag htagw hw hwd]
  dsimp only
  rw [List.take_left t _]

theorem parseSeries_oneshot_none (t a y tag w : Str)
    (hmark : hasMarker (t ++ ' ' :: '(' :: a) = false)
    (hy : y.all isDigit = true) (htagw : tag.all isWordChar = true)
    (hwd : w.all isDigit = true) :
    parseSeries (buildOneshotName t a y tag w) = none := by
  have hN : hasMarker (buildOneshotName t a y tag w) = false := by
    have hassoc : buildOneshotName t a y tag w =
        (t ++ ' ' :: '(' :: a) ++ afterAuthors y tag w := by
      rw [buildOneshotName, List.append_assoc]
      rfl
    rw [hassoc]
    rw [show afterAuthors y tag w = ')' :: ' ' :: '(' ::
      (y ++ ')' :: ' ' :: '[' :: (tag ++ '-' :: (w ++ ']' :: ".cbz".data))) from rfl]
    exact hasMarker_append_paren _ _ hmark
      (by
        rw [show (')' : Char) :: ' ' :: '(' ::
          (y ++ ')' :: ' ' :: '[' :: (tag ++ '-' :: (w ++ ']' :: ".cbz".data))) =
          afterAuthors y tag w from rfl]
        exact hasMarker_afterAuthors y tag w hy htagw hwd)
  have hfalse : ∀ i, validSeriesSplit (buildOneshotName t a y tag w) i = false := by
    intro i
    unfold validSeriesSplit
    rw [matchTailSeries_none (hasMarker_drop _ hN i)]
    simp
  unfold parseSeries
  rw [lastValid_none _ _ hfalse]

theorem parseOneshot_volume_none (cs : Str) {f : ParsedFields}
    (h : parseOneshot cs = some f) : f.volume = none := by
  unfold parseOneshot at h
  rcases hLV : lastValid (validOneshotSplit cs) (cs.length + 1) with _ | i
  · rw [hLV] at h
    exact absurd h (by simp)
  · rw [hLV] at h
    dsimp only at h
    rcases hmt : matchTailOneshot (cs.drop i) with _ | ⟨a, y, w⟩
    · rw [hmt] at h
      exact absurd h (by simp)
    · rw [hmt] at h
      dsimp only at h
      injection h with h'
      rw [← h']

theorem parseOneshot_build_some (t a y tag w : Str)
    (htN : t ≠ []) (htNL : noNL t = true)
    (haN : a ≠ []) (haNL : noNL a = true)
    (hy4 : y.length = 4) (hy : y.all isDigit = true)
    (htag : tag ≠ []) (htagw : tag.all isWordChar = true)
    (hw : w ≠ []) (hwd : w.all isDigit = true) :
    ∃ f, parseOneshot (buildOneshotName t a y tag w) = some f := by
  have ht1 : 1 ≤ t.length := by
    cases t with
    | nil => exact absurd rfl htN
    | cons c r => simp
  have hvalid : validOneshotSplit (buildOneshotName t a y tag w) t.length = true := by
    unfold validOneshotSplit buildOneshotName
    rw [List.take_left t _, List.drop_left t _]
    rw [show matchTailOneshot (' ' :: '(' :: (a ++ afterAuthors y tag w)) =
      lastAuthorsSplit (a ++ afterAuthors y tag w) from rfl]
    rw [lastAuthorsSplit_build a y tag w haN haNL hy4 hy htag htagw hw hwd]
    simp [ht1, htNL]
  have hsome := lastValid_isSome (validOneshotSplit (buildOneshotName t a y tag w))
    ((buildOneshotName t a y tag w).length + 1) t.length
    (by rw [buildOneshotName, List.length_append]; omega) hvalid
  unfold parseOneshot
  rcases hLV : lastValid (validOneshotSplit (buildOneshotName t a y tag w))
      ((buildOneshotName t a y tag w).length + 1) with _ | i
  · rw [hLV] at hsome
    exact absurd hsome (by simp)
  · dsimp only
    have hpi := lastValid_mem _ _ i hLV
    unfold validOneshotSplit at hpi
    simp only [Bool.and_eq_true, Option.isSome_iff_exists] at hpi
    obtain ⟨-, ⟨a2, y2, w2⟩, hg⟩ := hpi
    rw [hg]
    dsimp only
    exact ⟨_, rfl⟩



/-- C6: counterexample to the unconditional round trip. The filename built
from title "X", volume "1", authors "Y T2 (B", year "2020", tag "D" and
width "10" is a valid series filename under the grammar (the authors group
is `.+`), yet the greedy regex splits at the later ` T2 (` marker inside
the authors text: parsing recovers title "X T1 (Y", volume "2" and
authors "B", not the substrings used to construct the name. -/
theorem C6_counterexample :
    buildSeriesName "X".data "1".data "Y T2 (B".data "2020".data "D".data "10".data =
      "X T1 (Y T2 (B) (2020) [D-10].cbz".data
    ∧ parseFilename "X T1 (Y T2 (B) (2020) [D-10].cbz".data =
        some ⟨"X T1 (Y".data, some ("2".data), "B".data, "2020".data, "10".data⟩
    ∧ (⟨"X T1 (Y".data, some ("2".data), "B".data, "2020".data, "10".data⟩ : ParsedFields) ≠
        ⟨"X".data, some ("1".data), "Y T2 (B".data, "2020".data, "10".data⟩ :=
  ⟨rfl, rfl, by decide⟩

/-- C6 (amended): round trip through the name builders. (1) For a series
filename `<title> T<volume> (<authors>) (<year>) [<tag>-<width>].cbz` whose
pieces are shaped as the grammar demands, and whose authors text contains
no volume-marker occurrence ` T<digits> (`, parsing recovers exactly the
title, volume, authors, year and width substrings used to build the name.
(2) For a one-shot filename `<title> (<authors>) (<year>) [<tag>-<width>].cbz`
with no `T<n>` segment (no marker anywhere up to the authors' closing
parenthesis), parsing succeeds and yields `volume = none`. -/
theorem C6_roundtrip :
    (∀ t v a y tag w : Str, t ≠ [] → noNL t = true →
      v ≠ [] → v.all isDigit = true →
      a ≠ [] → noNL a = true → hasMarker a = false →
      y.length = 4 → y.all isDigit = true →
      tag ≠ [] → tag.all isWordChar = true →
      w ≠ [] → w.all isDigit = true →
      parseFilename (buildSeriesName t v a y tag w) = some ⟨t, some v, a, y, w⟩)
    ∧ (∀ t a y tag w : Str, t ≠ [] → noNL t = true →
      a ≠ [] → noNL a = true →
      hasMarker (t ++ ' ' :: '(' :: a) = false →
      y.length = 4 → y.all isDigit = true →
      tag ≠ [] → tag.all isWordChar = true →
      w ≠ [] → w.all isDigit = true →
      ∃ f, parseFilename (buildOneshotName t a y tag w) = some f ∧ f.volume = none) := by
  constructor
  · intro t v a y tag w htN htNL hv hvd haN haNL hmark hy4 hy htag htagw hw hwd
    unfold parseFilename
    rw [parseSeries_build t v a y tag w htN htNL hv hvd haN haNL hmark hy4 hy htag htagw hw hwd]
    rfl
  · intro t a y tag w htN htNL haN haNL hmark hy4 hy htag htagw hw hwd
    obtain ⟨f, hf⟩ := parseOneshot_build_some t a y tag w htN htNL haN haNL hy4 hy htag htagw hw hwd
    refine ⟨f, ?_, parseOneshot_volume_none _ hf⟩
    unfold parseFilename
    rw [parseSeries_oneshot_none t a y tag w hmark hy htagw hwd]
    exact hf

/-- Witness for C6: the amended round trip evaluated on a concrete series
name and a concrete one-shot name. -/
theorem C6_roundtrip_witness :
    parseFilename (buildSeriesName "Series".data "3".data "Writer".data
        "2020".data "Digital".data "1000".data) =
      some ⟨"Series".data, some ("3".data), "Writer".data, "2020".data, "1000".data⟩
    ∧ ∃ f, parseFilename (buildOneshotName "Solo".data "Auth".data
        "2020".data "D".data "10".data) = some f ∧ f.volume = none :=
  ⟨C6_roundtrip.1 "Series".data "3".data "Writer".data "2020".data "Digital".data "1000".data
      (by decide) (by decide) (by decide) (by decide) (by decide) (by decide) (by decide)
      (by decide) (by decide) (by decide) (by decide) (by decide) (by decide),
    C6_roundtrip.2 "Solo".data "Auth".data "2020".data "D".data "10".data
      (by decide) (by decide) (by decide) (by decide) (by decide) (by decide) (by decide)
      (by decide) (by decide) (by decide) (by decide)⟩


end Cbzlint
